import Mathlib

/-!
Shallow embedding of the k-d tree library (`Point`, `Tree`/`RecursiveInit`,
the stackless `TreeIterator`, and the two nearest-neighbor searches
`findNN_brute_force` / `findNN` / `findNN_`) from the repository's headers.

Modelling conventions:
* the scalar template parameter `T` is modelled as unbounded `Int`;
* `std::numeric_limits<T>::max()`, used only as the initial "no best yet"
  distance, is modelled as the sentinel `none : Option Int`; every actually
  computed squared distance compares strictly below it, which matches the
  C++ code in the regime where no arithmetic overflows;
* a null `Tree<T>*` child pointer is modelled by the `leaf` constructor;
  a built tree's root is always a `node`;
* `std::sort` with the comparator `a[axis] < b[axis]` leaves the range
  sorted nondecreasingly in that coordinate with unspecified tie order; it
  is modelled by insertion sort, a deterministic instance of that contract;
* the throwing `Point::operator[]` and the exception behaviour of
  `distance_to` on dimension mismatches are modelled separately by the
  `Except`-valued functions (`idxE`, `distanceToE`, ...).
-/

namespace KD

open List (Perm)

open scoped List

/-- squared Euclidean distance, `Point::distance_to`: loops `i` over the
dimensions of the *left* operand (`this` in the C++) and reads `other[i]`;
total version with `getD` (out-of-range modelled by `distanceToE`). -/
def distance_to (a b : List Int) : Int :=
  (List.range a.length).foldl
    (fun acc i => acc + (a.getD i 0 - b.getD i 0) * (a.getD i 0 - b.getD i 0)) 0

/-- one tree node (`Tree<T>`): owned point, split axis and the two child
pointers; `leaf` models a null pointer. -/
inductive Tree where
  | leaf : Tree
  | node (split_point : List Int) (split_axis : Nat) (left right : Tree) : Tree
deriving DecidableEq, Repr

def Tree.isLeaf : Tree → Bool
  | .leaf => true
  | .node _ _ _ _ => false

def Tree.split_point : Tree → List Int
  | .leaf => []
  | .node sp _ _ _ => sp

def Tree.split_axis : Tree → Nat
  | .leaf => 0
  | .node _ ax _ _ => ax

def Tree.left_child : Tree → Tree
  | .leaf => .leaf
  | .node _ _ l _ => l

def Tree.right_child : Tree → Tree
  | .leaf => .leaf
  | .node _ _ _ r => r

/-- the order induced by the `std::sort` comparator
`[axis](a, b){ return a[axis] < b[axis]; }`. -/
def axLe (ax : Nat) (a b : List Int) : Prop := a.getD ax 0 ≤ b.getD ax 0

instance (ax : Nat) : DecidableRel (axLe ax) := fun a b =>
  inferInstanceAs (Decidable (a.getD ax 0 ≤ b.getD ax 0))

instance (ax : Nat) : IsTotal (List Int) (axLe ax) := ⟨fun _ _ => le_total _ _⟩

instance (ax : Nat) : IsTrans (List Int) (axLe ax) := ⟨fun _ _ _ => le_trans⟩

/-- the sort performed by `RecursiveInit` along the split axis. -/
def sortByAxis (ax : Nat) (pts : List (List Int)) : List (List Int) :=
  List.insertionSort (axLe ax) pts

/-- `Tree::RecursiveInit`, fuel-indexed so that it evaluates by kernel
reduction; `recursiveInit` supplies fuel `pts.length`, which always
suffices (each sub-range is strictly shorter than its parent range).
The axis is `depth % dims` with `dims` the first point's size, the range is
sorted along it, the median at index `len / 2` becomes `split_point`, and
the strict sub-ranges before/after the median become the children; an empty
sub-range produces `leaf` (a null child pointer). -/
def buildGo : Nat → List (List Int) → Nat → Tree
  | _, [], _ => .leaf
  | 0, _ :: _, _ => .leaf
  | fuel + 1, p :: ps, depth =>
    let dims := p.length
    let axis := depth % dims
    let sorted := sortByAxis axis (p :: ps)
    let m := (p :: ps).length / 2
    Tree.node (sorted.getD m []) axis
      (buildGo fuel (sorted.take m) (depth + 1))
      (buildGo fuel (sorted.drop (m + 1)) (depth + 1))

def recursiveInit (pts : List (List Int)) (depth : Nat) : Tree :=
  buildGo pts.length pts depth

/-- the comparison `x < *best_dist`, where `none` is the initial
`numeric_limits<T>::max()` sentinel. -/
def ltBest (x : Int) : Option Int → Bool
  | none => true
  | some y => decide (x < y)

/-- `findNN_`: recursive nearest-neighbor search with pruning.  The state
is the pair `(*best_point, *best_dist)`.  `findNN_ leaf` returns `best`
unchanged, which models the C++ null-pointer guards `if (closer_child)` /
`if (farther_child)`; the two sign branches spell out
`closer = (d > 0) ? right : left`, `farther = (d > 0) ? left : right`. -/
def findNN_ : Tree → List Int → List Int × Option Int → List Int × Option Int
  | .leaf, _, best => best
  | .node sp ax l r, ref, best =>
    let local_dist := distance_to sp ref
    let best1 := if ltBest local_dist best.2 then (sp, some local_dist) else best
    let d := ref.getD ax 0 - sp.getD ax 0
    if 0 < d then
      let best2 := findNN_ r ref best1
      if ltBest (d * d) best2.2 then findNN_ l ref best2 else best2
    else
      let best2 := findNN_ l ref best1
      if ltBest (d * d) best2.2 then findNN_ r ref best2 else best2

/-- the initialization performed by the `findNN` wrapper: best point is the
root's own point, best distance is `numeric_limits<T>::max()` (sentinel
`none`). -/
def findNN_init (t : Tree) : List Int × Option Int := (t.split_point, none)

/-- `findNN`: wrapper for the recursive search, returns a copy of the best
point. -/
def findNN (t : Tree) (ref : List Int) : List Int :=
  (findNN_ t ref (findNN_init t)).1

/-- number of nodes of a tree. -/
def numNodes : Tree → Nat
  | .leaf => 0
  | .node _ _ l r => numNodes l + 1 + numNodes r

/-- height (number of levels) of a tree; a null pointer has height 0. -/
def height : Tree → Nat
  | .leaf => 0
  | .node _ _ l r => 1 + max (height l) (height r)

/-- the points stored in a tree, in in-order. -/
def treePoints : Tree → List (List Int)
  | .leaf => []
  | .node sp _ l r => treePoints l ++ sp :: treePoints r

/-!
The stackless `TreeIterator`.  The C++ iterator holds a raw node pointer
and navigates through `left_child_` / `right_child_` / `parent_` links.  We
identify a node of the (immutable) tree by its *path* from the root: a
`List Bool` of directions, `false` = left child, `true` = right child.
The parent link of the node at path `p ++ [b]` points to the node at `p`,
so the C++ climb loop "while I am my parent's right child, go up" is
exactly "strip the maximal trailing run of `true`s from the path".
-/

/-- node of `t` at path `p` (`leaf` if the path runs off the tree). -/
def nodeAt : Tree → List Bool → Tree
  | t, [] => t
  | .leaf, _ :: _ => .leaf
  | .node _ _ l _, false :: p => nodeAt l p
  | .node _ _ _ r, true :: p => nodeAt r p

/-- path of the leftmost node: `while (p->left_child_) p = p->left_child_`
(the descent used by `operator++` after stepping to a right child). -/
def leftSpine : Tree → List Bool
  | .leaf => []
  | .node _ _ .leaf _ => []
  | .node _ _ (.node sp ax a b) _ => false :: leftSpine (.node sp ax a b)

/-- path of the node `begin()` starts at: descend to the left child if
present, else to the right child, until a childless node is reached
(`TreeIterator(nodeptr node)`). -/
def beginPath : Tree → List Bool
  | .leaf => []
  | .node _ _ (.node sp ax a b) _ => false :: beginPath (.node sp ax a b)
  | .node _ _ .leaf (.node sp ax a b) => true :: beginPath (.node sp ax a b)
  | .node _ _ .leaf .leaf => []

/-- the climb loop of `operator++`: starting from the node at path `p`,
follow parent links upward while the current node is its parent's right
child; i.e. remove the maximal trailing run of `true`s. -/
def climbStrip : List Bool → List Bool
  | [] => []
  | b :: p =>
    match climbStrip p with
    | [] => if b then [] else [false]
    | x :: q => b :: x :: q

/-- `operator++` of the iterator, on paths; `none` is the end sentinel.
If the current node has a right child, step into it and descend its left
spine; otherwise climb while being a right child, then move to the parent
(`none` when the climb exhausts the root). -/
def succPath (t : Tree) (p : List Bool) : Option (List Bool) :=
  match nodeAt t p with
  | .node _ _ _ (.node sp ax a b) => some (p ++ true :: leftSpine (.node sp ax a b))
  | _ =>
    match climbStrip p with
    | [] => none
    | q => some q.dropLast

/-- the sequence of paths visited by iterating from a given state, with
explicit fuel (`numNodes t` suffices for a full traversal). -/
def iterChain : Nat → Tree → Option (List Bool) → List (List Bool)
  | 0, _, _ => []
  | _ + 1, _, none => []
  | fuel + 1, t, some p => p :: iterChain fuel t (succPath t p)

/-- the paths visited by iterating from `begin()` to `end()`. -/
def traversalPaths (t : Tree) : List (List Bool) :=
  iterChain (numNodes t) t (some (beginPath t))

/-- the points yielded by iterating from `begin()` to `end()` (what the
range-`for` in `findNN_brute_force` sees). -/
def traversalPoints (t : Tree) : List (List Int) :=
  (traversalPaths t).map (fun p => (nodeAt t p).split_point)

/-- in-order paths of all nodes of a tree. -/
def inorderPaths : Tree → List (List Bool)
  | .leaf => []
  | .node _ _ l r =>
    (inorderPaths l).map (fun p => false :: p) ++
      [] :: (inorderPaths r).map (fun p => true :: p)

/-- one step of the brute-force scan: keep the strictly closer point. -/
def bfStep (ref : List Int) (best : Option (List Int) × Option Int)
    (p : List Int) : Option (List Int) × Option Int :=
  if ltBest (distance_to p ref) best.2 then (some p, some (distance_to p ref)) else best

/-- `findNN_brute_force`: scan every point via the iterator, starting from
an uninitialized best pointer (modelled `none`) and
`numeric_limits<T>::max()`; returns `none` exactly when the C++ would
dereference the uninitialized `best_point`. -/
def findNN_brute_force (t : Tree) (ref : List Int) : Option (List Int) :=
  ((traversalPoints t).foldl (bfStep ref) (none, none)).1

/-!
Structural predicates about trees, as decidable Bool-valued functions.
-/

/-- ordering invariant at every node: left-subtree points are `<=` the
split point along the node's axis, right-subtree points are `>=`. -/
def ordered : Tree → Bool
  | .leaf => true
  | .node sp ax l r =>
    (treePoints l).all (fun p => decide (p.getD ax 0 ≤ sp.getD ax 0)) &&
      ((treePoints r).all (fun p => decide (sp.getD ax 0 ≤ p.getD ax 0)) &&
        (ordered l && ordered r))

/-- every node's point has length `dims` and its axis is `< dims`. -/
def wellFormed (dims : Nat) : Tree → Bool
  | .leaf => true
  | .node sp ax l r =>
    (sp.length == dims) && (decide (ax < dims) && (wellFormed dims l && wellFormed dims r))

/-- every node that has a right child also has a left child. -/
def noLoneRight : Tree → Bool
  | .leaf => true
  | .node _ _ l r =>
    (r.isLeaf || !l.isLeaf) && (noLoneRight l && noLoneRight r)

/-!
`Except`-valued variants modelling the exception behaviour on dimension
mismatches (claim C7).  `Point::operator[]` throws `std::out_of_range`
when the index is outside `[0, dims)`; `Tree::RecursiveInit` asserts at
the root call that all points share one size.
-/

/-- the throwing `Point::operator[]`. -/
def idxE (a : List Int) (i : Nat) : Except String Int :=
  if h : i < a.length then .ok (a.get ⟨i, h⟩) else .error "Point::operator[]"

/-- the loop of `distance_to`, indexing both operands through
`operator[]` (the left operand never faults since `i < a.length`). -/
def distGoE (a b : List Int) : List Nat → Int → Except String Int
  | [], acc => .ok acc
  | i :: rest, acc => do
    let ai ← idxE a i
    let bi ← idxE b i
    distGoE a b rest (acc + (ai - bi) * (ai - bi))

/-- `Point::distance_to` with the faulting index operator. -/
def distanceToE (a b : List Int) : Except String Int :=
  distGoE a b (List.range a.length) 0

/-- the root-call validation loop of `RecursiveInit`: all points must have
one common size (`assert(k == one_common_size)`). -/
def commonSizeOK : List (List Int) → Bool
  | [] => true
  | p :: ps => ps.all (fun q => q.length == p.length)

/-- tree construction with the root-call assertion modelled as an error. -/
def recursiveInitChecked (pts : List (List Int)) : Except String Tree :=
  if commonSizeOK pts then .ok (recursiveInit pts 0) else .error "assertion: k == one_common_size"

/-- the brute-force scan loop with the faulting `distance_to`. -/
def bfGoE (ref : List Int) : List (List Int) → Option (List Int) × Option Int →
    Except String (Option (List Int) × Option Int)
  | [], best => .ok best
  | p :: rest, best => do
    let dist ← distanceToE p ref
    bfGoE ref rest (if ltBest dist best.2 then (some p, some dist) else best)

/-- `findNN_brute_force` with the faulting `distance_to`. -/
def findNN_brute_force_checked (t : Tree) (ref : List Int) :
    Except String (Option (List Int)) := do
  let res ← bfGoE ref (traversalPoints t) ((none : Option (List Int)), (none : Option Int))
  pure res.1

/-- `findNN_` with the faulting `distance_to` and `operator[]`. -/
def findNN_E : Tree → List Int → List Int × Option Int →
    Except String (List Int × Option Int)
  | .leaf, _, best => .ok best
  | .node sp ax l r, ref, best => do
    let local_dist ← distanceToE sp ref
    let best1 := if ltBest local_dist best.2 then (sp, some local_dist) else best
    let rv ← idxE ref ax
    let sv ← idxE sp ax
    let d := rv - sv
    if 0 < d then do
      let best2 ← findNN_E r ref best1
      if ltBest (d * d) best2.2 then findNN_E l ref best2 else pure best2
    else do
      let best2 ← findNN_E l ref best1
      if ltBest (d * d) best2.2 then findNN_E r ref best2 else pure best2

/-- `findNN` with the faulting primitives. -/
def findNN_checked (t : Tree) (ref : List Int) : Except String (List Int) := do
  let res ← findNN_E t ref (findNN_init t)
  pure res.1

/-- order on best distances, `none` being the `max()` sentinel at the top. -/
def oLE (x y : Option Int) : Prop :=
  match x, y with
  | _, none => True
  | none, some _ => False
  | some a, some b => a ≤ b

/-!  Helper lemmas. -/

theorem oLE_refl (x : Option Int) : oLE x x := by
  cases x <;> simp [oLE]

theorem oLE_trans {x y z : Option Int} (h1 : oLE x y) (h2 : oLE y z) : oLE x z := by
  cases x <;> cases y <;> cases z <;> simp_all [oLE]
  omega

theorem oLE_none (x : Option Int) : oLE x none := by
  cases x <;> simp [oLE]

theorem ltBest_none (x : Int) : ltBest x none = true := rfl

theorem ltBest_some (x y : Int) : ltBest x (some y) = true ↔ x < y := by
  simp [ltBest]

theorem ltBest_false {x : Int} {bd : Option Int} (h : ltBest x bd = false) :
    ∃ v, bd = some v ∧ v ≤ x := by
  cases bd with
  | none => simp [ltBest] at h
  | some v => refine ⟨v, rfl, ?_⟩; simpa [ltBest] using h

theorem foldl_add_eq (f : α → Int) :
    ∀ (l : List α) (init : Int),
      l.foldl (fun acc x => acc + f x) init = init + (l.map f).sum
  | [], init => by simp
  | x :: xs, init => by
    simp [List.foldl_cons, foldl_add_eq f xs (init + f x), add_assoc]

theorem distance_to_eq_sum (a b : List Int) :
    distance_to a b =
      ((List.range a.length).map
        (fun i => (a.getD i 0 - b.getD i 0) * (a.getD i 0 - b.getD i 0))).sum := by
  unfold distance_to
  rw [foldl_add_eq]
  simp

theorem distance_to_nonneg (a b : List Int) : 0 ≤ distance_to a b := by
  rw [distance_to_eq_sum]
  apply List.sum_nonneg
  intro x hx
  simp only [List.mem_map] at hx
  obtain ⟨i, _, rfl⟩ := hx
  exact mul_self_nonneg _

theorem term_le_distance_to (a b : List Int) {i : Nat} (hi : i < a.length) :
    (a.getD i 0 - b.getD i 0) * (a.getD i 0 - b.getD i 0) ≤ distance_to a b := by
  rw [distance_to_eq_sum]
  apply List.single_le_sum
  · intro x hx
    simp only [List.mem_map] at hx
    obtain ⟨j, _, rfl⟩ := hx
    exact mul_self_nonneg _
  · exact List.mem_map_of_mem _ (List.mem_range.mpr hi)

theorem sortByAxis_perm (ax : Nat) (pts : List (List Int)) : sortByAxis ax pts ~ pts :=
  List.perm_insertionSort _ _

theorem sortByAxis_length (ax : Nat) (pts : List (List Int)) :
    (sortByAxis ax pts).length = pts.length :=
  (sortByAxis_perm ax pts).length_eq

theorem sortByAxis_sorted (ax : Nat) (pts : List (List Int)) :
    List.Sorted (axLe ax) (sortByAxis ax pts) :=
  List.sorted_insertionSort _ _

theorem buildGo_nil (fuel d : Nat) : buildGo fuel [] d = .leaf := by
  cases fuel <;> rfl

theorem buildGo_cons (fuel d : Nat) (p : List Int) (ps : List (List Int)) :
    buildGo (fuel + 1) (p :: ps) d =
      Tree.node ((sortByAxis (d % p.length) (p :: ps)).getD ((p :: ps).length / 2) [])
        (d % p.length)
        (buildGo fuel ((sortByAxis (d % p.length) (p :: ps)).take ((p :: ps).length / 2))
          (d + 1))
        (buildGo fuel ((sortByAxis (d % p.length) (p :: ps)).drop ((p :: ps).length / 2 + 1))
          (d + 1)) := rfl

theorem median_lt_length (p : List Int) (ps : List (List Int)) :
    (p :: ps).length / 2 < (p :: ps).length := by
  simp only [List.length_cons]
  omega

/-- the sorted range splits as `take m ++ median :: drop (m+1)`. -/
theorem sorted_split (ax : Nat) (p : List Int) (ps : List (List Int)) :
    (sortByAxis ax (p :: ps)).take ((p :: ps).length / 2) ++
        (sortByAxis ax (p :: ps)).getD ((p :: ps).length / 2) [] ::
          (sortByAxis ax (p :: ps)).drop ((p :: ps).length / 2 + 1) =
      sortByAxis ax (p :: ps) := by
  have hm : (p :: ps).length / 2 < (sortByAxis ax (p :: ps)).length := by
    rw [sortByAxis_length]; exact median_lt_length p ps
  rw [List.getD_eq_getElem _ _ hm, ← List.drop_eq_getElem_cons hm, List.take_append_drop]

theorem buildGo_fuel :
    ∀ (f1 : Nat) {f2 : Nat} {pts : List (List Int)} {d : Nat},
      pts.length ≤ f1 → pts.length ≤ f2 → buildGo f1 pts d = buildGo f2 pts d
  | 0, _, pts, _, h1, _ => by
    have h : pts = [] := List.length_eq_zero.mp (Nat.le_zero.mp h1)
    subst h; rw [buildGo_nil, buildGo_nil]
  | _ + 1, _, [], _, _, _ => by rw [buildGo_nil, buildGo_nil]
  | _ + 1, 0, _ :: _, _, _, h2 => by simp at h2
  | f1 + 1, f2 + 1, p :: ps, d, h1, h2 => by
    rw [buildGo_cons, buildGo_cons]
    have hlen : (sortByAxis (d % p.length) (p :: ps)).length = ps.length + 1 := by
      rw [sortByAxis_length]; rfl
    have ht : ((sortByAxis (d % p.length) (p :: ps)).take ((p :: ps).length / 2)).length =
        (p :: ps).length / 2 := by
      rw [List.length_take, hlen]
      simp only [List.length_cons]
      omega
    have hd : ((sortByAxis (d % p.length) (p :: ps)).drop
        ((p :: ps).length / 2 + 1)).length = ps.length - (p :: ps).length / 2 := by
      rw [List.length_drop, hlen]
      simp only [List.length_cons]
      omega
    have e1 := @buildGo_fuel f1 f2
      ((sortByAxis (d % p.length) (p :: ps)).take ((p :: ps).length / 2))
      (d + 1) (by rw [ht]; simp only [List.length_cons] at h1 ⊢; omega)
      (by rw [ht]; simp only [List.length_cons] at h2 ⊢; omega)
    have e2 := @buildGo_fuel f1 f2
      ((sortByAxis (d % p.length) (p :: ps)).drop ((p :: ps).length / 2 + 1))
      (d + 1) (by rw [hd]; simp only [List.length_cons] at h1 ⊢; omega)
      (by rw [hd]; simp only [List.length_cons] at h2 ⊢; omega)
    rw [e1, e2]

theorem treePoints_buildGo_perm :
    ∀ (fuel : Nat) {pts : List (List Int)} {d : Nat},
      pts.length ≤ fuel → treePoints (buildGo fuel pts d) ~ pts
  | 0, pts, _, h1 => by
    have h : pts = [] := List.length_eq_zero.mp (Nat.le_zero.mp h1)
    subst h; rw [buildGo_nil]; rfl
  | _ + 1, [], _, _ => by rw [buildGo_nil]; rfl
  | fuel + 1, p :: ps, d, h1 => by
    rw [buildGo_cons]
    show treePoints _ ++ _ :: treePoints _ ~ _
    have hlen : (sortByAxis (d % p.length) (p :: ps)).length = ps.length + 1 := by
      rw [sortByAxis_length]; rfl
    have ht : ((sortByAxis (d % p.length) (p :: ps)).take ((p :: ps).length / 2)).length =
        (p :: ps).length / 2 := by
      rw [List.length_take, hlen]; simp only [List.length_cons]; omega
    have hd : ((sortByAxis (d % p.length) (p :: ps)).drop
        ((p :: ps).length / 2 + 1)).length = ps.length - (p :: ps).length / 2 := by
      rw [List.length_drop, hlen]; simp only [List.length_cons]; omega
    have pl := @treePoints_buildGo_perm fuel
      ((sortByAxis (d % p.length) (p :: ps)).take ((p :: ps).length / 2))
      (d + 1) (by rw [ht]; simp only [List.length_cons] at h1 ⊢; omega)
    have pr := @treePoints_buildGo_perm fuel
      ((sortByAxis (d % p.length) (p :: ps)).drop ((p :: ps).length / 2 + 1))
      (d + 1) (by rw [hd]; simp only [List.length_cons] at h1 ⊢; omega)
    calc treePoints (buildGo fuel _ (d + 1)) ++
          (sortByAxis (d % p.length) (p :: ps)).getD ((p :: ps).length / 2) [] ::
            treePoints (buildGo fuel _ (d + 1))
        ~ (sortByAxis (d % p.length) (p :: ps)).take ((p :: ps).length / 2) ++
            (sortByAxis (d % p.length) (p :: ps)).getD ((p :: ps).length / 2) [] ::
              (sortByAxis (d % p.length) (p :: ps)).drop ((p :: ps).length / 2 + 1) :=
          pl.append (pr.cons _)
      _ = sortByAxis (d % p.length) (p :: ps) := sorted_split _ p ps
      _ ~ p :: ps := sortByAxis_perm _ _

theorem recursiveInit_perm (pts : List (List Int)) (d : Nat) :
    treePoints (recursiveInit pts d) ~ pts :=
  treePoints_buildGo_perm pts.length le_rfl

theorem treePoints_length : ∀ t : Tree, (treePoints t).length = numNodes t
  | .leaf => rfl
  | .node sp ax l r => by
    simp only [treePoints, numNodes, List.length_append, List.length_cons,
      treePoints_length l, treePoints_length r]
    omega

theorem numNodes_recursiveInit (pts : List (List Int)) (d : Nat) :
    numNodes (recursiveInit pts d) = pts.length := by
  rw [← treePoints_length, (recursiveInit_perm pts d).length_eq]

theorem ordered_node_iff {sp : List Int} {ax : Nat} {l r : Tree} :
    ordered (Tree.node sp ax l r) = true ↔
      (∀ p ∈ treePoints l, p.getD ax 0 ≤ sp.getD ax 0) ∧
        (∀ p ∈ treePoints r, sp.getD ax 0 ≤ p.getD ax 0) ∧
          (ordered l = true ∧ ordered r = true) := by
  simp [ordered, List.all_eq_true]

theorem wellFormed_node_iff {dims : Nat} {sp : List Int} {ax : Nat} {l r : Tree} :
    wellFormed dims (Tree.node sp ax l r) = true ↔
      sp.length = dims ∧ ax < dims ∧ (wellFormed dims l = true ∧ wellFormed dims r = true) := by
  simp [wellFormed]

theorem noLoneRight_node_iff {sp : List Int} {ax : Nat} {l r : Tree} :
    noLoneRight (Tree.node sp ax l r) = true ↔
      (r.isLeaf = false → l.isLeaf = false) ∧
        (noLoneRight l = true ∧ noLoneRight r = true) := by
  simp only [noLoneRight, Bool.and_eq_true, Bool.or_eq_true, Bool.not_eq_true']
  constructor
  · rintro ⟨h1, h2⟩
    refine ⟨?_, h2⟩
    intro hr
    rcases h1 with h | h
    · rw [hr] at h; cases h
    · exact h
  · rintro ⟨h1, h2⟩
    refine ⟨?_, h2⟩
    cases hr : r.isLeaf
    · exact Or.inr (h1 hr)
    · exact Or.inl rfl

/-- the elements before the median are `<=` it along the axis, those after
are `>=` (consequence of sortedness). -/
theorem sorted_median_bounds (ax : Nat) (p : List Int) (ps : List (List Int)) :
    (∀ q ∈ (sortByAxis ax (p :: ps)).take ((p :: ps).length / 2),
        q.getD ax 0 ≤ ((sortByAxis ax (p :: ps)).getD ((p :: ps).length / 2) []).getD ax 0) ∧
      (∀ q ∈ (sortByAxis ax (p :: ps)).drop ((p :: ps).length / 2 + 1),
        ((sortByAxis ax (p :: ps)).getD ((p :: ps).length / 2) []).getD ax 0 ≤ q.getD ax 0) := by
  have hs : List.Pairwise (axLe ax) (sortByAxis ax (p :: ps)) := sortByAxis_sorted ax (p :: ps)
  rw [← sorted_split ax p ps] at hs
  rw [List.pairwise_append] at hs
  obtain ⟨_, h2, h3⟩ := hs
  constructor
  · intro q hq
    exact h3 q hq _ (List.mem_cons_self _ _)
  · intro q hq
    exact (List.pairwise_cons.mp h2).1 q hq

theorem ordered_buildGo :
    ∀ (fuel : Nat) {pts : List (List Int)} {d : Nat},
      pts.length ≤ fuel → ordered (buildGo fuel pts d) = true
  | 0, pts, _, h1 => by
    have h : pts = [] := List.length_eq_zero.mp (Nat.le_zero.mp h1)
    subst h; rw [buildGo_nil]; rfl
  | _ + 1, [], _, _ => by rw [buildGo_nil]; rfl
  | fuel + 1, p :: ps, d, h1 => by
    rw [buildGo_cons, ordered_node_iff]
    have hlen : (sortByAxis (d % p.length) (p :: ps)).length = ps.length + 1 := by
      rw [sortByAxis_length]; rfl
    have ht : ((sortByAxis (d % p.length) (p :: ps)).take ((p :: ps).length / 2)).length =
        (p :: ps).length / 2 := by
      rw [List.length_take, hlen]; simp only [List.length_cons]; omega
    have hd : ((sortByAxis (d % p.length) (p :: ps)).drop
        ((p :: ps).length / 2 + 1)).length = ps.length - (p :: ps).length / 2 := by
      rw [List.length_drop, hlen]; simp only [List.length_cons]; omega
    have hbounds := sorted_median_bounds (d % p.length) p ps
    refine ⟨?_, ?_, ?_, ?_⟩
    · intro q hq
      have hmem : q ∈ (sortByAxis (d % p.length) (p :: ps)).take ((p :: ps).length / 2) :=
        (treePoints_buildGo_perm fuel
          (by rw [ht]; simp only [List.length_cons] at h1 ⊢; omega)).mem_iff.mp hq
      exact hbounds.1 q hmem
    · intro q hq
      have hmem : q ∈ (sortByAxis (d % p.length) (p :: ps)).drop ((p :: ps).length / 2 + 1) :=
        (treePoints_buildGo_perm fuel
          (by rw [hd]; simp only [List.length_cons] at h1 ⊢; omega)).mem_iff.mp hq
      exact hbounds.2 q hmem
    · exact ordered_buildGo fuel (by rw [ht]; simp only [List.length_cons] at h1 ⊢; omega)
    · exact ordered_buildGo fuel (by rw [hd]; simp only [List.length_cons] at h1 ⊢; omega)

theorem median_mem (ax : Nat) (p : List Int) (ps : List (List Int)) :
    (sortByAxis ax (p :: ps)).getD ((p :: ps).length / 2) [] ∈ p :: ps := by
  have hm : (p :: ps).length / 2 < (sortByAxis ax (p :: ps)).length := by
    rw [sortByAxis_length]; exact median_lt_length p ps
  rw [List.getD_eq_getElem _ _ hm]
  exact (sortByAxis_perm ax (p :: ps)).mem_iff.mp (List.getElem_mem hm)

theorem wellFormed_buildGo :
    ∀ (fuel : Nat) {pts : List (List Int)} {d dims : Nat},
      0 < dims → (∀ p ∈ pts, p.length = dims) → pts.length ≤ fuel →
        wellFormed dims (buildGo fuel pts d) = true
  | 0, pts, _, _, _, _, h1 => by
    have h : pts = [] := List.length_eq_zero.mp (Nat.le_zero.mp h1)
    subst h; rw [buildGo_nil]; rfl
  | _ + 1, [], _, _, _, _, _ => by rw [buildGo_nil]; rfl
  | fuel + 1, p :: ps, d, dims, hdims, hall, h1 => by
    rw [buildGo_cons, wellFormed_node_iff]
    have hlen : (sortByAxis (d % p.length) (p :: ps)).length = ps.length + 1 := by
      rw [sortByAxis_length]; rfl
    have ht : ((sortByAxis (d % p.length) (p :: ps)).take ((p :: ps).length / 2)).length =
        (p :: ps).length / 2 := by
      rw [List.length_take, hlen]; simp only [List.length_cons]; omega
    have hd : ((sortByAxis (d % p.length) (p :: ps)).drop
        ((p :: ps).length / 2 + 1)).length = ps.length - (p :: ps).length / 2 := by
      rw [List.length_drop, hlen]; simp only [List.length_cons]; omega
    have hsub : ∀ q ∈ sortByAxis (d % p.length) (p :: ps), q.length = dims := by
      intro q hq
      exact hall q ((sortByAxis_perm (d % p.length) (p :: ps)).mem_iff.mp hq)
    have hp : p.length = dims := hall p (List.mem_cons_self _ _)
    refine ⟨hall _ (median_mem _ p ps), ?_, ?_, ?_⟩
    · rw [hp]; exact Nat.mod_lt _ hdims
    · exact wellFormed_buildGo fuel hdims
        (fun q hq => hsub q (List.mem_of_mem_take hq))
        (by rw [ht]; simp only [List.length_cons] at h1 ⊢; omega)
    · exact wellFormed_buildGo fuel hdims
        (fun q hq => hsub q (List.mem_of_mem_drop hq))
        (by rw [hd]; simp only [List.length_cons] at h1 ⊢; omega)

theorem buildGo_isLeaf (fuel : Nat) {pts : List (List Int)} {d : Nat}
    (h : pts.length ≤ fuel) : (buildGo fuel pts d).isLeaf = pts.isEmpty := by
  match fuel, pts with
  | _, [] => rw [buildGo_nil]; rfl
  | 0, p :: ps => simp at h
  | fuel + 1, p :: ps => rw [buildGo_cons]; rfl

theorem noLoneRight_buildGo :
    ∀ (fuel : Nat) {pts : List (List Int)} {d : Nat},
      pts.length ≤ fuel → noLoneRight (buildGo fuel pts d) = true
  | 0, pts, _, h1 => by
    have h : pts = [] := List.length_eq_zero.mp (Nat.le_zero.mp h1)
    subst h; rw [buildGo_nil]; rfl
  | _ + 1, [], _, _ => by rw [buildGo_nil]; rfl
  | fuel + 1, p :: ps, d, h1 => by
    rw [buildGo_cons, noLoneRight_node_iff]
    have hlen : (sortByAxis (d % p.length) (p :: ps)).length = ps.length + 1 := by
      rw [sortByAxis_length]; rfl
    have ht : ((sortByAxis (d % p.length) (p :: ps)).take ((p :: ps).length / 2)).length =
        (p :: ps).length / 2 := by
      rw [List.length_take, hlen]; simp only [List.length_cons]; omega
    have hd : ((sortByAxis (d % p.length) (p :: ps)).drop
        ((p :: ps).length / 2 + 1)).length = ps.length - (p :: ps).length / 2 := by
      rw [List.length_drop, hlen]; simp only [List.length_cons]; omega
    have htf : ((sortByAxis (d % p.length) (p :: ps)).take ((p :: ps).length / 2)).length ≤
        fuel := by rw [ht]; simp only [List.length_cons] at h1 ⊢; omega
    have hdf : ((sortByAxis (d % p.length) (p :: ps)).drop
        ((p :: ps).length / 2 + 1)).length ≤ fuel := by
      rw [hd]; simp only [List.length_cons] at h1 ⊢; omega
    refine ⟨?_, noLoneRight_buildGo fuel htf, noLoneRight_buildGo fuel hdf⟩
    intro hr
    rw [buildGo_isLeaf fuel hdf] at hr
    rw [buildGo_isLeaf fuel htf]
    rw [List.isEmpty_eq_false_iff_exists_mem] at hr ⊢
    obtain ⟨x, hx⟩ := hr
    have : ps.length - (p :: ps).length / 2 ≠ 0 := by
      intro h0
      rw [← hd] at h0
      rw [List.length_eq_zero.mp h0] at hx
      cases hx
    have hm1 : 1 ≤ (p :: ps).length / 2 := by simp only [List.length_cons] at this ⊢; omega
    have : ((sortByAxis (d % p.length) (p :: ps)).take ((p :: ps).length / 2)).length ≠ 0 := by
      rw [ht]; omega
    obtain ⟨y, hy⟩ := List.exists_mem_of_length_pos (Nat.pos_of_ne_zero this)
    exact ⟨y, hy⟩

theorem clog2_half_succ (n : Nat) (hn : 1 ≤ n) :
    Nat.clog 2 (n + 1) = Nat.clog 2 (n / 2 + 1) + 1 := by
  rw [Nat.clog_of_two_le (by norm_num) (by omega)]
  have h : (n + 1 + 2 - 1) / 2 = n / 2 + 1 := by omega
  rw [h]

theorem height_buildGo :
    ∀ (fuel : Nat) {pts : List (List Int)} {d : Nat},
      pts.length ≤ fuel → height (buildGo fuel pts d) = Nat.clog 2 (pts.length + 1)
  | 0, pts, _, h1 => by
    have h : pts = [] := List.length_eq_zero.mp (Nat.le_zero.mp h1)
    subst h; rw [buildGo_nil]
    simp [height]
  | _ + 1, [], _, _ => by
    rw [buildGo_nil]; simp [height]
  | fuel + 1, p :: ps, d, h1 => by
    rw [buildGo_cons]
    show 1 + max (height _) (height _) = _
    have hlen : (sortByAxis (d % p.length) (p :: ps)).length = ps.length + 1 := by
      rw [sortByAxis_length]; rfl
    have ht : ((sortByAxis (d % p.length) (p :: ps)).take ((p :: ps).length / 2)).length =
        (p :: ps).length / 2 := by
      rw [List.length_take, hlen]; simp only [List.length_cons]; omega
    have hd : ((sortByAxis (d % p.length) (p :: ps)).drop
        ((p :: ps).length / 2 + 1)).length = ps.length - (p :: ps).length / 2 := by
      rw [List.length_drop, hlen]; simp only [List.length_cons]; omega
    rw [height_buildGo fuel (by rw [ht]; simp only [List.length_cons] at h1 ⊢; omega),
      height_buildGo fuel (by rw [hd]; simp only [List.length_cons] at h1 ⊢; omega), ht, hd]
    have hmax : Nat.clog 2 (ps.length - (p :: ps).length / 2 + 1) ≤
        Nat.clog 2 ((p :: ps).length / 2 + 1) := by
      apply Nat.clog_mono_right
      simp only [List.length_cons]
      omega
    rw [Nat.max_eq_left hmax]
    rw [clog2_half_succ (p :: ps).length (by simp)]
    omega

/-!  Correctness of the pruned search `findNN_`. -/

theorem wellFormed_points_length {dims : Nat} :
    ∀ {t : Tree}, wellFormed dims t = true → ∀ p ∈ treePoints t, p.length = dims
  | .leaf, _, p, hp => by cases hp
  | .node sp ax l r, hwf, p, hp => by
    rw [wellFormed_node_iff] at hwf
    obtain ⟨hsp, _, hwl, hwr⟩ := hwf
    rw [treePoints, List.mem_append, List.mem_cons] at hp
    rcases hp with hp | hp | hp
    · exact wellFormed_points_length hwl p hp
    · exact hp ▸ hsp
    · exact wellFormed_points_length hwr p hp

theorem upd_disj (x : Int) (b : List Int × Option Int) (sp : List Int) :
    (if ltBest x b.2 then (sp, some x) else b) = b ∨
      ((if ltBest x b.2 then (sp, some x) else b) = (sp, some x)) := by
  split_ifs with h
  · exact Or.inr rfl
  · exact Or.inl rfl

theorem upd_oLE (x : Int) (b : List Int × Option Int) (sp : List Int) :
    oLE ((if ltBest x b.2 then (sp, some x) else b).2) b.2 := by
  split_ifs with h
  · rcases hb : b.2 with _ | v
    · exact oLE_none _
    · rw [hb] at h
      simp only [oLE]
      exact le_of_lt ((ltBest_some x v).mp h)
  · exact oLE_refl _

theorem upd_oLE_self (x : Int) (b : List Int × Option Int) (sp : List Int) :
    oLE ((if ltBest x b.2 then (sp, some x) else b).2) (some x) := by
  split_ifs with h
  · simp [oLE]
  · rcases ltBest_false (Bool.eq_false_iff.mpr h) with ⟨v, hv, hvx⟩
    simp [hv, oLE, hvx]

/-- the shape of the recursion after the closer child has been chosen:
recurse into the closer child; then recurse into the farther child exactly
when `d*d < best_dist` still holds, else skip it. -/
def prStep (ref : List Int) (d : Int) (closer farther : Tree)
    (best : List Int × Option Int) : List Int × Option Int :=
  if ltBest (d * d) (findNN_ closer ref best).2 then
    findNN_ farther ref (findNN_ closer ref best)
  else findNN_ closer ref best

/-- the behaviour contract of `findNN_` on a subtree: the result is either
the incoming best pair unchanged or a point of the subtree paired with its
own distance; the best distance never increases; and (completeness, which
relies on the ordering invariant for pruning) it ends `<=` the distance of
every point of the subtree. -/
def NNSpec (ref : List Int) (t : Tree) : Prop :=
  ∀ b : List Int × Option Int,
    (findNN_ t ref b = b ∨
      ((findNN_ t ref b).1 ∈ treePoints t ∧
        (findNN_ t ref b).2 = some (distance_to (findNN_ t ref b).1 ref))) ∧
      oLE (findNN_ t ref b).2 b.2 ∧
      ∀ p ∈ treePoints t, oLE (findNN_ t ref b).2 (some (distance_to p ref))

theorem findNN_node_eq (sp : List Int) (ax : Nat) (l r : Tree) (ref : List Int)
    (b : List Int × Option Int) :
    findNN_ (Tree.node sp ax l r) ref b =
      (if 0 < ref.getD ax 0 - sp.getD ax 0 then
        prStep ref (ref.getD ax 0 - sp.getD ax 0) r l
          (if ltBest (distance_to sp ref) b.2 then (sp, some (distance_to sp ref)) else b)
      else
        prStep ref (ref.getD ax 0 - sp.getD ax 0) l r
          (if ltBest (distance_to sp ref) b.2 then (sp, some (distance_to sp ref)) else b)) :=
  rfl

theorem prStep_spec {ref : List Int} {d : Int} {closer farther : Tree}
    (IHc : NNSpec ref closer) (IHf : NNSpec ref farther)
    (hgeom : ∀ p ∈ treePoints farther, d * d ≤ distance_to p ref)
    (b : List Int × Option Int) :
    (prStep ref d closer farther b = b ∨
      (((prStep ref d closer farther b).1 ∈ treePoints closer ∨
          (prStep ref d closer farther b).1 ∈ treePoints farther) ∧
        (prStep ref d closer farther b).2 =
          some (distance_to (prStep ref d closer farther b).1 ref))) ∧
      oLE (prStep ref d closer farther b).2 b.2 ∧
      ∀ p : List Int, p ∈ treePoints closer ∨ p ∈ treePoints farther →
        oLE (prStep ref d closer farther b).2 (some (distance_to p ref)) := by
  obtain ⟨c1, c2, c3⟩ := IHc b
  unfold prStep
  split_ifs with hlt
  · obtain ⟨f1, f2, f3⟩ := IHf (findNN_ closer ref b)
    refine ⟨?_, oLE_trans f2 c2, ?_⟩
    · rcases f1 with f1 | ⟨f1a, f1b⟩
      · rw [f1]
        rcases c1 with c1 | ⟨c1a, c1b⟩
        · exact Or.inl c1
        · exact Or.inr ⟨Or.inl c1a, c1b⟩
      · exact Or.inr ⟨Or.inr f1a, f1b⟩
    · rintro p (hp | hp)
      · exact oLE_trans f2 (c3 p hp)
      · exact f3 p hp
  · refine ⟨?_, c2, ?_⟩
    · rcases c1 with c1 | ⟨c1a, c1b⟩
      · exact Or.inl c1
      · exact Or.inr ⟨Or.inl c1a, c1b⟩
    · rintro p (hp | hp)
      · exact c3 p hp
      · rcases ltBest_false (Bool.eq_false_iff.mpr hlt) with ⟨v, hv, hvd⟩
        rw [hv]
        simp only [oLE]
        exact le_trans hvd (hgeom p hp)

theorem far_dist_ge {dims : Nat} {ref sp : List Int} {ax : Nat} {far : Tree}
    (hax : ax < dims) (hwf : wellFormed dims far = true)
    (hside :
      (∀ p ∈ treePoints far, p.getD ax 0 ≤ sp.getD ax 0 ∧ 0 < ref.getD ax 0 - sp.getD ax 0) ∨
      (∀ p ∈ treePoints far, sp.getD ax 0 ≤ p.getD ax 0 ∧ ref.getD ax 0 - sp.getD ax 0 ≤ 0)) :
    ∀ p ∈ treePoints far,
      (ref.getD ax 0 - sp.getD ax 0) * (ref.getD ax 0 - sp.getD ax 0) ≤ distance_to p ref := by
  intro p hp
  have hlen : p.length = dims := wellFormed_points_length hwf p hp
  have hterm := term_le_distance_to p ref (i := ax) (by omega)
  rcases hside with hside | hside
  · obtain ⟨h1, h2⟩ := hside p hp
    have h3 : ref.getD ax 0 - sp.getD ax 0 ≤ ref.getD ax 0 - p.getD ax 0 := by omega
    have h4 : (ref.getD ax 0 - sp.getD ax 0) * (ref.getD ax 0 - sp.getD ax 0) ≤
        (ref.getD ax 0 - p.getD ax 0) * (ref.getD ax 0 - p.getD ax 0) :=
      mul_self_le_mul_self (le_of_lt h2) h3
    have h5 : (ref.getD ax 0 - p.getD ax 0) * (ref.getD ax 0 - p.getD ax 0) =
        (p.getD ax 0 - ref.getD ax 0) * (p.getD ax 0 - ref.getD ax 0) := by ring
    exact le_trans h4 (h5 ▸ hterm)
  · obtain ⟨h1, h2⟩ := hside p hp
    have h3 : -(ref.getD ax 0 - sp.getD ax 0) ≤ p.getD ax 0 - ref.getD ax 0 := by omega
    have h4 : (-(ref.getD ax 0 - sp.getD ax 0)) * (-(ref.getD ax 0 - sp.getD ax 0)) ≤
        (p.getD ax 0 - ref.getD ax 0) * (p.getD ax 0 - ref.getD ax 0) :=
      mul_self_le_mul_self (by omega) h3
    have h5 : (-(ref.getD ax 0 - sp.getD ax 0)) * (-(ref.getD ax 0 - sp.getD ax 0)) =
        (ref.getD ax 0 - sp.getD ax 0) * (ref.getD ax 0 - sp.getD ax 0) := by ring
    exact le_trans (h5 ▸ h4) hterm

theorem findNN_spec {dims : Nat} (ref : List Int) :
    ∀ t : Tree, wellFormed dims t = true → ordered t = true → NNSpec ref t
  | .leaf, _, _ => by
    intro b
    refine ⟨Or.inl rfl, oLE_refl _, ?_⟩
    intro p hp
    cases hp
  | .node sp ax l r, hwf, hord => by
    rw [wellFormed_node_iff] at hwf
    rw [ordered_node_iff] at hord
    obtain ⟨hsp, hax, hwl, hwr⟩ := hwf
    obtain ⟨hol, hor, hordl, hordr⟩ := hord
    have IHl := findNN_spec ref l hwl hordl
    have IHr := findNN_spec ref r hwr hordr
    intro b
    rw [findNN_node_eq]
    have hupd := upd_disj (distance_to sp ref) b sp
    have hupd2 := upd_oLE (distance_to sp ref) b sp
    have hupd3 := upd_oLE_self (distance_to sp ref) b sp
    set b1 := (if ltBest (distance_to sp ref) b.2 then (sp, some (distance_to sp ref)) else b)
      with hb1
    by_cases hsign : 0 < ref.getD ax 0 - sp.getD ax 0
    · rw [if_pos hsign]
      have hgeom := @far_dist_ge dims ref sp ax l hax hwl
        (Or.inl (fun p hp => ⟨hol p hp, hsign⟩))
      obtain ⟨s1, s2, s3⟩ := prStep_spec IHr IHl hgeom b1
      refine ⟨?_, oLE_trans s2 hupd2, ?_⟩
      · rcases s1 with s1 | ⟨s1a, s1b⟩
        · rw [s1]
          rcases hupd with hu | hu
          · exact Or.inl hu
          · refine Or.inr ⟨?_, by rw [hu]⟩
            rw [hu]
            rw [treePoints, List.mem_append, List.mem_cons]
            exact Or.inr (Or.inl rfl)
        · refine Or.inr ⟨?_, s1b⟩
          rw [treePoints, List.mem_append, List.mem_cons]
          rcases s1a with h | h
          · exact Or.inr (Or.inr h)
          · exact Or.inl h
      · intro p hp
        rw [treePoints, List.mem_append, List.mem_cons] at hp
        rcases hp with hp | hp | hp
        · exact s3 p (Or.inr hp)
        · subst hp
          exact oLE_trans s2 hupd3
        · exact s3 p (Or.inl hp)
    · rw [if_neg hsign]
      have hd0 : ref.getD ax 0 - sp.getD ax 0 ≤ 0 := by omega
      have hgeom := @far_dist_ge dims ref sp ax r hax hwr
        (Or.inr (fun p hp => ⟨hor p hp, hd0⟩))
      obtain ⟨s1, s2, s3⟩ := prStep_spec IHl IHr hgeom b1
      refine ⟨?_, oLE_trans s2 hupd2, ?_⟩
      · rcases s1 with s1 | ⟨s1a, s1b⟩
        · rw [s1]
          rcases hupd with hu | hu
          · exact Or.inl hu
          · refine Or.inr ⟨?_, by rw [hu]⟩
            rw [hu]
            rw [treePoints, List.mem_append, List.mem_cons]
            exact Or.inr (Or.inl rfl)
        · refine Or.inr ⟨?_, s1b⟩
          rw [treePoints, List.mem_append, List.mem_cons]
          rcases s1a with h | h
          · exact Or.inl h
          · exact Or.inr (Or.inr h)
      · intro p hp
        rw [treePoints, List.mem_append, List.mem_cons] at hp
        rcases hp with hp | hp | hp
        · exact s3 p (Or.inl hp)
        · subst hp
          exact oLE_trans s2 hupd3
        · exact s3 p (Or.inr hp)

theorem oLE_some_some {a b : Int} : oLE (some a) (some b) ↔ a ≤ b := Iff.rfl

theorem not_oLE_none_some (b : Int) : ¬ oLE none (some b) := fun h => h

/-!  Correctness of the brute-force fold. -/

theorem bfStep_disj (ref : List Int) (acc : Option (List Int) × Option Int) (p : List Int) :
    bfStep ref acc p = acc ∨
      ((bfStep ref acc p).1 = some p ∧ (bfStep ref acc p).2 = some (distance_to p ref)) := by
  unfold bfStep
  split_ifs
  · exact Or.inr ⟨rfl, rfl⟩
  · exact Or.inl rfl

theorem bfStep_oLE (ref : List Int) (acc : Option (List Int) × Option Int) (p : List Int) :
    oLE (bfStep ref acc p).2 acc.2 := by
  unfold bfStep
  split_ifs with h
  · rcases hb : acc.2 with _ | v
    · exact oLE_none _
    · rw [hb] at h
      exact le_of_lt ((ltBest_some _ v).mp h)
  · exact oLE_refl _

theorem bfStep_oLE_self (ref : List Int) (acc : Option (List Int) × Option Int) (p : List Int) :
    oLE (bfStep ref acc p).2 (some (distance_to p ref)) := by
  unfold bfStep
  split_ifs with h
  · exact le_refl _
  · rcases ltBest_false (Bool.eq_false_iff.mpr h) with ⟨v, hv, hvx⟩
    rw [hv]
    exact hvx

theorem bfFold_spec (ref : List Int) :
    ∀ (L : List (List Int)) (acc : Option (List Int) × Option Int),
      (L.foldl (bfStep ref) acc = acc ∨
        (∃ q ∈ L, (L.foldl (bfStep ref) acc).1 = some q ∧
          (L.foldl (bfStep ref) acc).2 = some (distance_to q ref))) ∧
        oLE (L.foldl (bfStep ref) acc).2 acc.2 ∧
        ∀ p ∈ L, oLE (L.foldl (bfStep ref) acc).2 (some (distance_to p ref))
  | [], acc => ⟨Or.inl rfl, oLE_refl _, fun p hp => absurd hp (List.not_mem_nil p)⟩
  | p :: L, acc => by
    rw [List.foldl_cons]
    obtain ⟨h1, h2, h3⟩ := bfFold_spec ref L (bfStep ref acc p)
    refine ⟨?_, oLE_trans h2 (bfStep_oLE ref acc p), ?_⟩
    · rcases h1 with h1 | ⟨q, hq, hq1, hq2⟩
      · rw [h1]
        rcases bfStep_disj ref acc p with hs | ⟨hs1, hs2⟩
        · exact Or.inl hs
        · exact Or.inr ⟨p, List.mem_cons_self _ _, hs1, hs2⟩
      · exact Or.inr ⟨q, List.mem_cons_of_mem _ hq, hq1, hq2⟩
    · intro x hx
      rcases List.mem_cons.mp hx with hx | hx
      · subst hx
        exact oLE_trans h2 (bfStep_oLE_self ref acc x)
      · exact h3 x hx

theorem findNN_brute_force_min (t : Tree) (ref : List Int)
    (hne : traversalPoints t ≠ []) :
    ∃ q, findNN_brute_force t ref = some q ∧ q ∈ traversalPoints t ∧
      ∀ p ∈ traversalPoints t, distance_to q ref ≤ distance_to p ref := by
  obtain ⟨h1, _, h3⟩ := bfFold_spec ref (traversalPoints t) (none, none)
  rcases List.exists_mem_of_ne_nil _ hne with ⟨p0, hp0⟩
  rcases h1 with h1 | ⟨q, hq, hq1, hq2⟩
  · exfalso
    have := h3 p0 hp0
    rw [h1] at this
    exact not_oLE_none_some _ this
  · refine ⟨q, ?_, hq, ?_⟩
    · unfold findNN_brute_force
      exact hq1
    · intro p hp
      have := h3 p hp
      rw [hq2] at this
      exact this

theorem findNN_min {dims : Nat} (t : Tree) (ref : List Int)
    (hwf : wellFormed dims t = true) (hord : ordered t = true)
    (hne : treePoints t ≠ []) :
    findNN t ref ∈ treePoints t ∧
      ∀ p ∈ treePoints t, distance_to (findNN t ref) ref ≤ distance_to p ref := by
  obtain ⟨h1, _, h3⟩ := findNN_spec ref t hwf hord (t.split_point, none)
  rcases List.exists_mem_of_ne_nil _ hne with ⟨p0, hp0⟩
  rcases h1 with h1 | ⟨hm, he⟩
  · exfalso
    have := h3 p0 hp0
    rw [h1] at this
    exact not_oLE_none_some _ this
  · refine ⟨hm, ?_⟩
    intro p hp
    have := h3 p hp
    rw [he] at this
    exact this

/-!  Correctness of the stackless iterator: the successor function on paths
implements the in-order successor, so iterating from `begin()` enumerates
`inorderPaths`. -/

theorem nodeAt_nil (t : Tree) : nodeAt t [] = t := by
  cases t <;> rfl

theorem nodeAt_false (sp : List Int) (ax : Nat) (l r : Tree) (p : List Bool) :
    nodeAt (Tree.node sp ax l r) (false :: p) = nodeAt l p := rfl

theorem nodeAt_true (sp : List Int) (ax : Nat) (l r : Tree) (p : List Bool) :
    nodeAt (Tree.node sp ax l r) (true :: p) = nodeAt r p := rfl

theorem climbStrip_cons (b : Bool) (p : List Bool) :
    climbStrip (b :: p) =
      match climbStrip p with
      | [] => if b then [] else [false]
      | x :: q => b :: x :: q := rfl

theorem succPath_right {t : Tree} {p : List Bool} {sp1 sp2 : List Int}
    {ax1 ax2 : Nat} {l1 a2 b2 : Tree}
    (h : nodeAt t p = Tree.node sp1 ax1 l1 (Tree.node sp2 ax2 a2 b2)) :
    succPath t p = some (p ++ true :: leftSpine (Tree.node sp2 ax2 a2 b2)) := by
  unfold succPath
  rw [h]

theorem succPath_climb {t : Tree} {p : List Bool}
    (h : (nodeAt t p).right_child.isLeaf = true) :
    succPath t p =
      match climbStrip p with
      | [] => none
      | q => some q.dropLast := by
  rcases hn : nodeAt t p with _ | ⟨sp1, ax1, l1, _ | ⟨sp2, ax2, a2, b2⟩⟩
  · unfold succPath
    rw [hn]
  · unfold succPath
    rw [hn]
  · rw [hn] at h
    simp [Tree.right_child, Tree.isLeaf] at h

theorem lift_false_some {sp : List Int} {ax : Nat} {l r : Tree} {a b : List Bool}
    (h : succPath l a = some b) :
    succPath (Tree.node sp ax l r) (false :: a) = some (false :: b) := by
  rcases hn : nodeAt l a with _ | ⟨sp1, ax1, l1, _ | ⟨sp2, ax2, a2, b2⟩⟩
  · rw [succPath_climb (by rw [hn]; rfl)] at h
    rw [succPath_climb (by rw [nodeAt_false, hn]; rfl)]
    rcases hcs : climbStrip a with _ | ⟨x, q⟩
    · rw [hcs] at h; cases h
    · rw [hcs] at h
      rw [climbStrip_cons, hcs]
      have h2 : some ((x :: q).dropLast) = some b := h
      show some ((false :: x :: q).dropLast) = some (false :: b)
      rw [List.dropLast_cons₂]
      simp only [Option.some.injEq] at h2 ⊢
      rw [← h2]
  · rw [succPath_climb (by rw [hn]; rfl)] at h
    rw [succPath_climb (by rw [nodeAt_false, hn]; rfl)]
    rcases hcs : climbStrip a with _ | ⟨x, q⟩
    · rw [hcs] at h; cases h
    · rw [hcs] at h
      rw [climbStrip_cons, hcs]
      have h2 : some ((x :: q).dropLast) = some b := h
      show some ((false :: x :: q).dropLast) = some (false :: b)
      rw [List.dropLast_cons₂]
      simp only [Option.some.injEq] at h2 ⊢
      rw [← h2]
  · rw [succPath_right hn] at h
    rw [succPath_right (show nodeAt (Tree.node sp ax l r) (false :: a) = _ from
      (nodeAt_false sp ax l r a).trans hn)]
    simp only [Option.some.injEq] at h ⊢
    rw [← h]
    rfl

theorem lift_false_none {sp : List Int} {ax : Nat} {l r : Tree} {a : List Bool}
    (h : succPath l a = none) :
    succPath (Tree.node sp ax l r) (false :: a) = some [] := by
  rcases hn : nodeAt l a with _ | ⟨sp1, ax1, l1, _ | ⟨sp2, ax2, a2, b2⟩⟩
  · rw [succPath_climb (by rw [hn]; rfl)] at h
    rw [succPath_climb (by rw [nodeAt_false, hn]; rfl)]
    rcases hcs : climbStrip a with _ | ⟨x, q⟩
    · rw [climbStrip_cons, hcs]
      rfl
    · rw [hcs] at h; cases h
  · rw [succPath_climb (by rw [hn]; rfl)] at h
    rw [succPath_climb (by rw [nodeAt_false, hn]; rfl)]
    rcases hcs : climbStrip a with _ | ⟨x, q⟩
    · rw [climbStrip_cons, hcs]
      rfl
    · rw [hcs] at h; cases h
  · rw [succPath_right hn] at h
    cases h

theorem lift_true_some {sp : List Int} {ax : Nat} {l r : Tree} {a b : List Bool}
    (h : succPath r a = some b) :
    succPath (Tree.node sp ax l r) (true :: a) = some (true :: b) := by
  rcases hn : nodeAt r a with _ | ⟨sp1, ax1, l1, _ | ⟨sp2, ax2, a2, b2⟩⟩
  · rw [succPath_climb (by rw [hn]; rfl)] at h
    rw [succPath_climb (by rw [nodeAt_true, hn]; rfl)]
    rcases hcs : climbStrip a with _ | ⟨x, q⟩
    · rw [hcs] at h; cases h
    · rw [hcs] at h
      rw [climbStrip_cons, hcs]
      have h2 : some ((x :: q).dropLast) = some b := h
      show some ((true :: x :: q).dropLast) = some (true :: b)
      rw [List.dropLast_cons₂]
      simp only [Option.some.injEq] at h2 ⊢
      rw [← h2]
  · rw [succPath_climb (by rw [hn]; rfl)] at h
    rw [succPath_climb (by rw [nodeAt_true, hn]; rfl)]
    rcases hcs : climbStrip a with _ | ⟨x, q⟩
    · rw [hcs] at h; cases h
    · rw [hcs] at h
      rw [climbStrip_cons, hcs]
      have h2 : some ((x :: q).dropLast) = some b := h
      show some ((true :: x :: q).dropLast) = some (true :: b)
      rw [List.dropLast_cons₂]
      simp only [Option.some.injEq] at h2 ⊢
      rw [← h2]
  · rw [succPath_right hn] at h
    rw [succPath_right (show nodeAt (Tree.node sp ax l r) (true :: a) = _ from
      (nodeAt_true sp ax l r a).trans hn)]
    simp only [Option.some.injEq] at h ⊢
    rw [← h]
    rfl

theorem lift_true_none {sp : List Int} {ax : Nat} {l r : Tree} {a : List Bool}
    (h : succPath r a = none) :
    succPath (Tree.node sp ax l r) (true :: a) = none := by
  rcases hn : nodeAt r a with _ | ⟨sp1, ax1, l1, _ | ⟨sp2, ax2, a2, b2⟩⟩
  · rw [succPath_climb (by rw [hn]; rfl)] at h
    rw [succPath_climb (by rw [nodeAt_true, hn]; rfl)]
    rcases hcs : climbStrip a with _ | ⟨x, q⟩
    · rw [climbStrip_cons, hcs]
      rfl
    · rw [hcs] at h; cases h
  · rw [succPath_climb (by rw [hn]; rfl)] at h
    rw [succPath_climb (by rw [nodeAt_true, hn]; rfl)]
    rcases hcs : climbStrip a with _ | ⟨x, q⟩
    · rw [climbStrip_cons, hcs]
      rfl
    · rw [hcs] at h; cases h
  · rw [succPath_right hn] at h
    cases h

theorem succPath_root_right (sp : List Int) (ax : Nat) (l : Tree) (sp2 : List Int)
    (ax2 : Nat) (a2 b2 : Tree) :
    succPath (Tree.node sp ax l (Tree.node sp2 ax2 a2 b2)) [] =
      some (true :: leftSpine (Tree.node sp2 ax2 a2 b2)) :=
  succPath_right (nodeAt_nil _)

theorem succPath_root_noright (sp : List Int) (ax : Nat) (l : Tree) :
    succPath (Tree.node sp ax l .leaf) [] = none := by
  rw [succPath_climb (by rfl)]
  rfl

theorem inorderPaths_ne_nil : ∀ {t : Tree}, t.isLeaf = false → inorderPaths t ≠ []
  | .leaf, h => by simp [Tree.isLeaf] at h
  | .node sp ax l r, _ => by
    rw [inorderPaths]
    intro hc
    exact absurd (List.append_eq_nil.mp hc).2 (by simp)

theorem head?_inorderPaths : ∀ {t : Tree}, t.isLeaf = false →
    (inorderPaths t).head? = some (leftSpine t)
  | .leaf, h => by simp [Tree.isLeaf] at h
  | .node sp ax .leaf r, _ => by
    rw [inorderPaths]
    rfl
  | .node sp ax (.node sp2 ax2 a2 b2) r, _ => by
    have ih := head?_inorderPaths (t := .node sp2 ax2 a2 b2) rfl
    rw [inorderPaths]
    have hne : (inorderPaths (Tree.node sp2 ax2 a2 b2)).map (fun p => false :: p) ≠ [] := by
      simp only [ne_eq, List.map_eq_nil_iff]
      exact inorderPaths_ne_nil rfl
    rw [List.head?_append_of_ne_nil _ hne, List.head?_map, ih]
    rfl

/-- the successor function steps through `inorderPaths` and returns `none`
exactly at its end. -/
theorem succ_chain : ∀ t : Tree,
    List.Chain' (fun a b => succPath t a = some b) (inorderPaths t) ∧
      (∀ a, (inorderPaths t).getLast? = some a → succPath t a = none)
  | .leaf => ⟨List.chain'_nil, fun a ha => by cases ha⟩
  | .node sp ax l r => by
    obtain ⟨ihcl, ihll⟩ := succ_chain l
    obtain ⟨ihcr, ihlr⟩ := succ_chain r
    constructor
    · rw [inorderPaths, List.chain'_append]
      refine ⟨?_, ?_, ?_⟩
      · rw [List.chain'_map]
        exact ihcl.imp (fun _ _ hab => lift_false_some hab)
      · rw [List.chain'_cons']
        constructor
        · intro y hy
          rcases r with _ | ⟨sp2, ax2, a2, b2⟩
          · simp [inorderPaths] at hy
          · rw [List.head?_map, head?_inorderPaths (t := Tree.node sp2 ax2 a2 b2) rfl] at hy
            simp only [Option.map_some', Option.mem_def, Option.some.injEq] at hy
            subst hy
            exact succPath_root_right sp ax l sp2 ax2 a2 b2
        · rw [List.chain'_map]
          exact ihcr.imp (fun _ _ hab => lift_true_some hab)
      · intro x hx y hy
        simp only [List.head?_cons, Option.mem_def, Option.some.injEq] at hy
        subst hy
        rw [List.getLast?_map] at hx
        rcases hl : (inorderPaths l).getLast? with _ | a
        · rw [hl] at hx; cases hx
        · rw [hl] at hx
          simp only [Option.map_some', Option.mem_def, Option.some.injEq] at hx
          subst hx
          exact lift_false_none (ihll a hl)
    · intro a ha
      rw [inorderPaths] at ha
      rcases r with _ | ⟨sp2, ax2, a2, b2⟩
      · rw [show inorderPaths Tree.leaf = [] from rfl, List.map_nil] at ha
        rw [List.getLast?_append_of_ne_nil _ (by simp)] at ha
        simp only [List.getLast?_singleton, Option.some.injEq] at ha
        subst ha
        exact succPath_root_noright sp ax l
      · have hne : ([] : List Bool) ::
            (inorderPaths (Tree.node sp2 ax2 a2 b2)).map (fun p => true :: p) ≠ [] := by
          simp
        rw [List.getLast?_append_of_ne_nil _ hne] at ha
        have hne2 : (inorderPaths (Tree.node sp2 ax2 a2 b2)).map (fun p => true :: p) ≠ [] := by
          simp only [ne_eq, List.map_eq_nil_iff]
          exact inorderPaths_ne_nil rfl
        rw [show (([] : List Bool) ::
            (inorderPaths (Tree.node sp2 ax2 a2 b2)).map (fun p => true :: p)) =
            [([] : List Bool)] ++
              (inorderPaths (Tree.node sp2 ax2 a2 b2)).map (fun p => true :: p) from rfl,
          List.getLast?_append_of_ne_nil _ hne2, List.getLast?_map] at ha
        rcases hl : (inorderPaths (Tree.node sp2 ax2 a2 b2)).getLast? with _ | a2p
        · rw [hl] at ha; cases ha
        · rw [hl] at ha
          simp only [Option.map_some', Option.some.injEq] at ha
          subst ha
          exact lift_true_none (ihlr a2p hl)

theorem iterChain_none (fuel : Nat) (t : Tree) : iterChain fuel t none = [] := by
  cases fuel <;> rfl

theorem iterChain_of_chain (t : Tree) :
    ∀ (rest : List (List Bool)) (p : List Bool),
      List.Chain' (fun a b => succPath t a = some b) (p :: rest) →
      (∀ a, (p :: rest).getLast? = some a → succPath t a = none) →
      ∀ fuel, (p :: rest).length ≤ fuel → iterChain fuel t (some p) = p :: rest
  | [], p, _, hlast, fuel, hf => by
    rcases fuel with _ | f
    · simp only [List.length_cons] at hf; omega
    · show p :: iterChain f t (succPath t p) = [p]
      rw [hlast p rfl, iterChain_none]
  | q :: rest, p, hchain, hlast, fuel, hf => by
    rcases fuel with _ | f
    · simp only [List.length_cons] at hf; omega
    · show p :: iterChain f t (succPath t p) = p :: q :: rest
      rw [List.chain'_cons] at hchain
      rw [hchain.1]
      rw [iterChain_of_chain t rest q hchain.2
        (fun a ha => hlast a (by rw [List.getLast?_cons_cons]; exact ha)) f
        (by simp only [List.length_cons] at hf ⊢; omega)]

theorem beginPath_eq_leftSpine : ∀ t : Tree, noLoneRight t = true → beginPath t = leftSpine t
  | .leaf, _ => rfl
  | .node sp ax (.node sp2 ax2 a2 b2) r, h => by
    rw [noLoneRight_node_iff] at h
    show false :: beginPath (Tree.node sp2 ax2 a2 b2) =
      false :: leftSpine (Tree.node sp2 ax2 a2 b2)
    rw [beginPath_eq_leftSpine _ h.2.1]
  | .node sp ax .leaf r, h => by
    rw [noLoneRight_node_iff] at h
    have hr : r.isLeaf = true := by
      by_contra hc
      have := h.1 (Bool.eq_false_iff.mpr hc)
      simp [Tree.isLeaf] at this
    rcases r with _ | ⟨sp2, ax2, a2, b2⟩
    · rfl
    · simp [Tree.isLeaf] at hr

theorem length_inorderPaths : ∀ t : Tree, (inorderPaths t).length = numNodes t
  | .leaf => rfl
  | .node sp ax l r => by
    rw [inorderPaths, numNodes]
    simp only [List.length_append, List.length_map, List.length_cons,
      length_inorderPaths l, length_inorderPaths r]
    omega

theorem traversalPaths_eq_inorder {t : Tree} (hnlr : noLoneRight t = true)
    (hne : t.isLeaf = false) : traversalPaths t = inorderPaths t := by
  obtain ⟨hchain, hlast⟩ := succ_chain t
  have hh := head?_inorderPaths hne
  rcases hip : inorderPaths t with _ | ⟨p0, rest⟩
  · rw [hip] at hh; cases hh
  · rw [hip] at hh
    simp only [List.head?_cons, Option.some.injEq] at hh
    unfold traversalPaths
    rw [beginPath_eq_leftSpine t hnlr, ← hh]
    rw [hip] at hchain hlast
    apply iterChain_of_chain t rest p0 hchain hlast
    rw [← hip, length_inorderPaths]

theorem inorder_map_points : ∀ t : Tree,
    (inorderPaths t).map (fun p => (nodeAt t p).split_point) = treePoints t
  | .leaf => rfl
  | .node sp ax l r => by
    rw [inorderPaths, treePoints]
    rw [List.map_append, List.map_cons, List.map_map, List.map_map]
    have hl : ((fun p => (nodeAt (Tree.node sp ax l r) p).split_point) ∘
        (fun p => false :: p)) = fun p => (nodeAt l p).split_point := rfl
    have hr : ((fun p => (nodeAt (Tree.node sp ax l r) p).split_point) ∘
        (fun p => true :: p)) = fun p => (nodeAt r p).split_point := rfl
    rw [hl, hr, inorder_map_points l, inorder_map_points r]
    rfl

theorem nodup_inorderPaths : ∀ t : Tree, (inorderPaths t).Nodup
  | .leaf => List.nodup_nil
  | .node sp ax l r => by
    rw [inorderPaths]
    apply List.Nodup.append
    · exact (nodup_inorderPaths l).map (fun a b h => by
        injection h)
    · apply List.Nodup.cons
      · intro hmem
        rcases List.mem_map.mp hmem with ⟨q, _, hq⟩
        cases hq
      · exact (nodup_inorderPaths r).map (fun a b h => by
          injection h)
    · intro x hxA hxB
      rcases List.mem_map.mp hxA with ⟨qa, _, hqa⟩
      rcases List.mem_cons.mp hxB with hb | hb
      · rw [← hqa] at hb; cases hb
      · rcases List.mem_map.mp hb with ⟨qb, _, hqb⟩
        rw [← hqa] at hqb
        cases hqb

theorem traversalPoints_eq_treePoints {t : Tree} (hnlr : noLoneRight t = true)
    (hne : t.isLeaf = false) : traversalPoints t = treePoints t := by
  unfold traversalPoints
  rw [traversalPaths_eq_inorder hnlr hne, inorder_map_points]

/-!  Behaviour of the `Except`-valued (exception-aware) variants. -/

theorem idxE_ok {a : List Int} {i : Nat} (h : i < a.length) :
    idxE a i = .ok (a.getD i 0) := by
  unfold idxE
  rw [dif_pos h]
  rw [List.getD_eq_getElem a 0 h]
  rfl

theorem idxE_error {a : List Int} {i : Nat} (h : ¬ i < a.length) :
    idxE a i = .error "Point::operator[]" := dif_neg h

theorem distGoE_error {a b : List Int} :
    ∀ (idxs : List Nat) (acc : Int), (∀ i ∈ idxs, i < a.length) →
      (∃ i ∈ idxs, b.length ≤ i) →
      distGoE a b idxs acc = .error "Point::operator[]"
  | [], _, _, hex => by
    rcases hex with ⟨i, hi, _⟩
    cases hi
  | i :: rest, acc, hall, hex => by
    have hia : i < a.length := hall i (List.mem_cons_self i rest)
    have ha : idxE a i = .ok (a.getD i 0) := idxE_ok hia
    show ((idxE a i).bind fun ai => (idxE b i).bind fun bi =>
      distGoE a b rest (acc + (ai - bi) * (ai - bi))) = _
    by_cases hib : i < b.length
    · have hb : idxE b i = .ok (b.getD i 0) := idxE_ok hib
      rw [ha, hb]
      show distGoE a b rest _ = _
      apply distGoE_error rest _ (fun j hj => hall j (List.mem_cons_of_mem _ hj))
      rcases hex with ⟨j, hj, hbj⟩
      rcases List.mem_cons.mp hj with hj | hj
      · subst hj; omega
      · exact ⟨j, hj, hbj⟩
    · have hb : idxE b i = .error "Point::operator[]" := idxE_error hib
      rw [ha, hb]
      rfl

theorem distanceToE_error {a b : List Int} (h : b.length < a.length) :
    distanceToE a b = .error "Point::operator[]" := by
  apply distGoE_error _ _ (fun i hi => List.mem_range.mp hi)
  exact ⟨b.length, List.mem_range.mpr h, le_rfl⟩

theorem distGoE_ok {a b : List Int} :
    ∀ (idxs : List Nat) (acc : Int), (∀ i ∈ idxs, i < a.length) →
      (∀ i ∈ idxs, i < b.length) →
      distGoE a b idxs acc = .ok (idxs.foldl
        (fun acc i => acc + (a.getD i 0 - b.getD i 0) * (a.getD i 0 - b.getD i 0)) acc)
  | [], _, _, _ => rfl
  | i :: rest, acc, hall, hbl => by
    have ha : idxE a i = .ok (a.getD i 0) := idxE_ok (hall i (List.mem_cons_self i rest))
    have hb : idxE b i = .ok (b.getD i 0) := idxE_ok (hbl i (List.mem_cons_self i rest))
    show ((idxE a i).bind fun ai => (idxE b i).bind fun bi =>
      distGoE a b rest (acc + (ai - bi) * (ai - bi))) = _
    rw [ha, hb]
    show distGoE a b rest _ = _
    rw [distGoE_ok rest _ (fun j hj => hall j (List.mem_cons_of_mem _ hj))
      (fun j hj => hbl j (List.mem_cons_of_mem _ hj))]
    rfl

theorem distanceToE_ok {a b : List Int} (h : a.length ≤ b.length) :
    distanceToE a b = .ok (distance_to a b) := by
  unfold distanceToE distance_to
  exact distGoE_ok _ _ (fun i hi => List.mem_range.mp hi)
    (fun i hi => lt_of_lt_of_le (List.mem_range.mp hi) h)

theorem bfGoE_error {ref : List Int} {dims : Nat} {p0 : List Int}
    {rest : List (List Int)} {best : Option (List Int) × Option Int}
    (hp0 : p0.length = dims) (href : ref.length < dims) :
    bfGoE ref (p0 :: rest) best = .error "Point::operator[]" := by
  have herr : distanceToE p0 ref = .error "Point::operator[]" :=
    distanceToE_error (by omega)
  show ((distanceToE p0 ref).bind fun dist =>
    bfGoE ref rest (if ltBest dist best.2 then (some p0, some dist) else best)) = _
  rw [herr]
  rfl

theorem bfGoE_ok {ref : List Int} {dims : Nat} (hd : dims ≤ ref.length) :
    ∀ (L : List (List Int)) (best : Option (List Int) × Option Int),
      (∀ p ∈ L, p.length = dims) →
      bfGoE ref L best = .ok (L.foldl (bfStep ref) best)
  | [], best, _ => rfl
  | p :: rest, best, hall => by
    have hp : p.length = dims := hall p (List.mem_cons_self p rest)
    have hok : distanceToE p ref = .ok (distance_to p ref) := distanceToE_ok (by omega)
    show ((distanceToE p ref).bind fun dist =>
      bfGoE ref rest (if ltBest dist best.2 then (some p, some dist) else best)) = _
    rw [hok]
    show bfGoE ref rest _ = _
    rw [bfGoE_ok hd rest _ (fun q hq => hall q (List.mem_cons_of_mem _ hq))]
    rfl

theorem findNN_E_ok {ref : List Int} {dims : Nat} (hd : dims ≤ ref.length) :
    ∀ (t : Tree), wellFormed dims t = true →
      ∀ best : List Int × Option Int, findNN_E t ref best = .ok (findNN_ t ref best)
  | .leaf, _, best => rfl
  | .node sp ax l r, hwf, best => by
    rw [wellFormed_node_iff] at hwf
    obtain ⟨hsp, hax, hwl, hwr⟩ := hwf
    have hds : distanceToE sp ref = .ok (distance_to sp ref) := distanceToE_ok (by omega)
    have hir : idxE ref ax = .ok (ref.getD ax 0) := idxE_ok (by omega)
    have his : idxE sp ax = .ok (sp.getD ax 0) := idxE_ok (by omega)
    show ((distanceToE sp ref).bind fun local_dist =>
      (idxE ref ax).bind fun rv => (idxE sp ax).bind fun sv => _) = _
    rw [hds]
    show ((idxE ref ax).bind fun rv => (idxE sp ax).bind fun sv => _) = _
    rw [hir]
    show ((idxE sp ax).bind fun sv => _) = _
    rw [his]
    show (if 0 < ref.getD ax 0 - sp.getD ax 0 then
        ((findNN_E r ref _).bind fun best2 =>
          if ltBest _ best2.2 then findNN_E l ref best2 else Except.pure best2)
      else
        ((findNN_E l ref _).bind fun best2 =>
          if ltBest _ best2.2 then findNN_E r ref best2 else Except.pure best2)) = _
    by_cases hsign : 0 < ref.getD ax 0 - sp.getD ax 0
    · rw [if_pos hsign]
      rw [findNN_E_ok hd r hwr]
      show (if ltBest _ (findNN_ r ref _).2 then findNN_E l ref (findNN_ r ref _)
        else Except.pure (findNN_ r ref _)) = _
      rw [findNN_node_eq, if_pos hsign]
      unfold prStep
      split_ifs
      all_goals first
      | rfl
      | exact findNN_E_ok hd l hwl _
    · rw [if_neg hsign]
      rw [findNN_E_ok hd l hwl]
      show (if ltBest _ (findNN_ l ref _).2 then findNN_E r ref (findNN_ l ref _)
        else Except.pure (findNN_ l ref _)) = _
      rw [findNN_node_eq, if_neg hsign]
      unfold prStep
      split_ifs
      all_goals first
      | rfl
      | exact findNN_E_ok hd r hwr _

theorem commonSizeOK_lengths {pts : List (List Int)} (h : commonSizeOK pts = true) :
    ∀ x ∈ pts, ∀ y ∈ pts, x.length = y.length := by
  rcases pts with _ | ⟨p, ps⟩
  · intro x hx; cases hx
  · unfold commonSizeOK at h
    rw [List.all_eq_true] at h
    intro x hx y hy
    have hx2 : x.length = p.length := by
      rcases List.mem_cons.mp hx with hx | hx
      · rw [hx]
      · simpa using h x hx
    have hy2 : y.length = p.length := by
      rcases List.mem_cons.mp hy with hy | hy
      · rw [hy]
      · simpa using h y hy
    omega

theorem recursiveInitChecked_error {pts : List (List Int)} {x y : List Int}
    (hx : x ∈ pts) (hy : y ∈ pts) (hxy : x.length ≠ y.length) :
    recursiveInitChecked pts = .error "assertion: k == one_common_size" := by
  have hc : ¬ commonSizeOK pts = true := fun hc =>
    hxy (commonSizeOK_lengths hc x hx y hy)
  unfold recursiveInitChecked
  rw [if_neg hc]

theorem findNN_checked_error {dims : Nat} {sp : List Int} {ax : Nat} {l r : Tree}
    {ref : List Int} (hsp : sp.length = dims) (href : ref.length < dims) :
    findNN_checked (Tree.node sp ax l r) ref = .error "Point::operator[]" := by
  have herr : distanceToE sp ref = .error "Point::operator[]" :=
    distanceToE_error (by omega)
  have h1 : findNN_E (Tree.node sp ax l r) ref (findNN_init (Tree.node sp ax l r)) =
      .error "Point::operator[]" := by
    show ((distanceToE sp ref).bind _) = _
    rw [herr]
    rfl
  unfold findNN_checked
  rw [h1]
  rfl

/-- two incoming best pairs that agree after the root update lead `findNN_`
to the same result. -/
theorem findNN_update_eq {sp : List Int} {ax : Nat} {l r : Tree} {ref : List Int}
    {b b' : List Int × Option Int}
    (h : (if ltBest (distance_to sp ref) b.2 then (sp, some (distance_to sp ref)) else b) =
      (if ltBest (distance_to sp ref) b'.2 then (sp, some (distance_to sp ref)) else b')) :
    findNN_ (Tree.node sp ax l r) ref b = findNN_ (Tree.node sp ax l r) ref b' := by
  rw [findNN_node_eq, findNN_node_eq, h]

/-- the facts established by construction from a non-empty collection of
points of one common positive dimensionality. -/
theorem built_tree_facts {pts : List (List Int)} {dims : Nat}
    (hdims : 0 < dims) (hall : ∀ p ∈ pts, p.length = dims) (hne : pts ≠ []) :
    wellFormed dims (recursiveInit pts 0) = true ∧
      ordered (recursiveInit pts 0) = true ∧
      noLoneRight (recursiveInit pts 0) = true ∧
      (recursiveInit pts 0).isLeaf = false ∧
      treePoints (recursiveInit pts 0) ~ pts ∧
      traversalPoints (recursiveInit pts 0) = treePoints (recursiveInit pts 0) := by
  have hwf := @wellFormed_buildGo pts.length pts 0 dims hdims hall le_rfl
  have hord := @ordered_buildGo pts.length pts 0 le_rfl
  have hnlr := @noLoneRight_buildGo pts.length pts 0 le_rfl
  have hleaf : (recursiveInit pts 0).isLeaf = false := by
    unfold recursiveInit
    rw [buildGo_isLeaf pts.length le_rfl]
    rcases pts with _ | ⟨p, ps⟩
    · exact absurd rfl hne
    · rfl
  exact ⟨hwf, hord, hnlr, hleaf, recursiveInit_perm pts 0,
    traversalPoints_eq_treePoints hnlr hleaf⟩

/-- the six-point example from the repository's own test driver. -/
def examplePoints : List (List Int) := [[2, 3], [5, 4], [9, 6], [4, 7], [8, 1], [7, 2]]

/-!  The claims. -/

/-- C1: for every k-d tree built from a non-empty collection of points of
one common dimensionality and every query point of that dimensionality,
the point returned by the pruned search `findNN` and the point returned by
`findNN_brute_force` have equal squared Euclidean distance to the query
(the brute force returns a point, at the same distance as the pruned
result; the points themselves may differ on ties). -/
theorem search_agreement {pts : List (List Int)} {dims : Nat} {t : Tree}
    {ref : List Int}
    (hdims : 0 < dims) (hall : ∀ p ∈ pts, p.length = dims) (hne : pts ≠ [])
    (ht : recursiveInit pts 0 = t) (href : ref.length = dims) :
    ∃ q, findNN_brute_force t ref = some q ∧
      distance_to q ref = distance_to (findNN t ref) ref := by
  subst ht
  obtain ⟨hwf, hord, hnlr, hleaf, hperm, htrav⟩ := built_tree_facts hdims hall hne
  have htne : treePoints (recursiveInit pts 0) ≠ [] := by
    intro hc
    rw [hc] at hperm
    exact hne hperm.symm.eq_nil
  have hvne : traversalPoints (recursiveInit pts 0) ≠ [] := by
    rw [htrav]
    exact htne
  obtain ⟨q, hq1, hq2, hq3⟩ := findNN_brute_force_min _ ref hvne
  obtain ⟨hf1, hf2⟩ := @findNN_min dims _ ref hwf hord htne
  refine ⟨q, hq1, ?_⟩
  have h1 : distance_to q ref ≤ distance_to (findNN (recursiveInit pts 0) ref) ref := by
    apply hq3
    rw [htrav]
    exact hf1
  have h2 : distance_to (findNN (recursiveInit pts 0) ref) ref ≤ distance_to q ref := by
    apply hf2
    rw [← htrav]
    exact hq2
  exact le_antisymm h1 h2

theorem search_agreement_witness :
    (0 < 2 ∧ (∀ p ∈ examplePoints, p.length = 2) ∧ examplePoints ≠ [] ∧
        ([9, 2] : List Int).length = 2) ∧
      ∃ q, findNN_brute_force (recursiveInit examplePoints 0) [9, 2] = some q ∧
        distance_to q [9, 2] =
          distance_to (findNN (recursiveInit examplePoints 0) [9, 2]) [9, 2] :=
  ⟨⟨by decide, by decide, by decide, by decide⟩,
    @search_agreement examplePoints 2 _ [9, 2] (by decide) (by decide) (by decide) rfl
      (by decide)⟩

/-- C2: at every node of the recursive search, with
`d = query[axis] - split_point[axis]`, the closer child (right if `d > 0`,
else left) is searched first; the farther child is then recursed into if
and only if `d*d < best_distance` holds strictly against the best distance
current after the closer-child recursion; otherwise the entire farther
subtree is skipped and the result is that post-closer best. -/
theorem prune_condition (sp : List Int) (ax : Nat) (l r : Tree) (ref : List Int)
    (b : List Int × Option Int) :
    findNN_ (Tree.node sp ax l r) ref b =
      (let local_dist := distance_to sp ref
       let best1 := if ltBest local_dist b.2 then (sp, some local_dist) else b
       let d := ref.getD ax 0 - sp.getD ax 0
       let closer := if 0 < d then r else l
       let farther := if 0 < d then l else r
       let best2 := findNN_ closer ref best1
       if ltBest (d * d) best2.2 then findNN_ farther ref best2 else best2) := by
  rw [findNN_node_eq]
  by_cases hsign : 0 < ref.getD ax 0 - sp.getD ax 0
  · simp only [if_pos hsign]
    rfl
  · simp only [if_neg hsign]
    rfl

/-- C3: for every tree built from a non-empty common-dimensionality
collection, at every node all points of the left subtree are `<=` the
node's split point along the node's split axis, and all points of the
right subtree are `>=` (the predicate `ordered` states exactly this,
recursively at every node). -/
theorem construction_ordering_invariant {pts : List (List Int)} {dims : Nat}
    {t : Tree}
    (hdims : 0 < dims) (hall : ∀ p ∈ pts, p.length = dims) (hne : pts ≠ [])
    (ht : recursiveInit pts 0 = t) : ordered t = true := by
  subst ht
  exact ordered_buildGo pts.length le_rfl

theorem construction_ordering_invariant_witness :
    (0 < 2 ∧ (∀ p ∈ examplePoints, p.length = 2) ∧ examplePoints ≠ []) ∧
      ordered (recursiveInit examplePoints 0) = true :=
  ⟨⟨by decide, by decide, by decide⟩,
    @construction_ordering_invariant examplePoints 2 _ (by decide) (by decide) (by decide)
      rfl⟩

/-- C4: iterating a tree built from n points from `begin()` to `end()`
with the stackless parent-link iterator visits exactly n nodes, each node
exactly once (the visited paths are distinct), and the multiset of points
yielded equals the multiset of input points. -/
theorem traversal_completeness {pts : List (List Int)} {dims : Nat} {t : Tree}
    (hdims : 0 < dims) (hall : ∀ p ∈ pts, p.length = dims) (hne : pts ≠ [])
    (ht : recursiveInit pts 0 = t) :
    (traversalPoints t).length = pts.length ∧
      traversalPoints t ~ pts ∧ (traversalPaths t).Nodup := by
  subst ht
  obtain ⟨hwf, hord, hnlr, hleaf, hperm, htrav⟩ := built_tree_facts hdims hall hne
  refine ⟨?_, ?_, ?_⟩
  · rw [htrav]
    exact hperm.length_eq
  · rw [htrav]
    exact hperm
  · rw [traversalPaths_eq_inorder hnlr hleaf]
    exact nodup_inorderPaths _

theorem traversal_completeness_witness :
    (0 < 2 ∧ (∀ p ∈ examplePoints, p.length = 2) ∧ examplePoints ≠ []) ∧
      (traversalPoints (recursiveInit examplePoints 0)).length = examplePoints.length ∧
      traversalPoints (recursiveInit examplePoints 0) ~ examplePoints ∧
      (traversalPaths (recursiveInit examplePoints 0)).Nodup :=
  ⟨⟨by decide, by decide, by decide⟩,
    @traversal_completeness examplePoints 2 _ (by decide) (by decide) (by decide) rfl⟩

/-- C5: the height (number of levels) of a tree built from n points is
exactly the ceiling of log2(n+1), i.e. `Nat.clog 2 (n+1)`. -/
theorem tree_height_exact {pts : List (List Int)} {dims : Nat} {t : Tree}
    (hdims : 0 < dims) (hall : ∀ p ∈ pts, p.length = dims) (hne : pts ≠ [])
    (ht : recursiveInit pts 0 = t) :
    height t = Nat.clog 2 (pts.length + 1) := by
  subst ht
  exact height_buildGo pts.length le_rfl

theorem tree_height_exact_witness :
    (0 < 2 ∧ (∀ p ∈ examplePoints, p.length = 2) ∧ examplePoints ≠ []) ∧
      height (recursiveInit examplePoints 0) = Nat.clog 2 (examplePoints.length + 1) :=
  ⟨⟨by decide, by decide, by decide⟩,
    @tree_height_exact examplePoints 2 _ (by decide) (by decide) (by decide) rfl⟩

/-- C6: at every recursive construction step over a non-empty range at a
given depth, the splitting axis is `depth mod dims` (with `dims` the first
point's size), the split point is the element at index `len / 2` of the
range sorted along that axis, the left child is built from the sub-range
strictly before that element and the right child from the sub-range
strictly after it, each at `depth + 1`; an empty sub-range produces no
child (`leaf`). -/
theorem median_split_structure (p : List Int) (ps : List (List Int)) (depth : Nat) :
    recursiveInit (p :: ps) depth =
      Tree.node ((sortByAxis (depth % p.length) (p :: ps)).getD ((p :: ps).length / 2) [])
        (depth % p.length)
        (recursiveInit
          ((sortByAxis (depth % p.length) (p :: ps)).take ((p :: ps).length / 2))
          (depth + 1))
        (recursiveInit
          ((sortByAxis (depth % p.length) (p :: ps)).drop ((p :: ps).length / 2 + 1))
          (depth + 1)) ∧
      recursiveInit [] depth = Tree.leaf := by
  constructor
  · show buildGo (ps.length + 1) (p :: ps) depth = _
    rw [buildGo_cons]
    have hlen : (sortByAxis (depth % p.length) (p :: ps)).length = ps.length + 1 := by
      rw [sortByAxis_length]
      rfl
    have ht : ((sortByAxis (depth % p.length) (p :: ps)).take
        ((p :: ps).length / 2)).length ≤ ps.length := by
      rw [List.length_take, hlen]
      simp only [List.length_cons]
      omega
    have hd : ((sortByAxis (depth % p.length) (p :: ps)).drop
        ((p :: ps).length / 2 + 1)).length ≤ ps.length := by
      rw [List.length_drop, hlen]
      simp only [List.length_cons]
      omega
    congr 1
    · exact buildGo_fuel ps.length ht le_rfl
    · exact buildGo_fuel ps.length hd le_rfl
  · rfl

/-- C7 (counterexample): the claim says running either nearest-neighbor
search with a query of mismatched dimensionality fails rather than
returning a point; but on the 2-d tree built from (0,0), the 3-d query
(3,4,5) makes both searches return the point (0,0) without any error:
`distance_to` only iterates over the tree point's own dimensions, so a
larger query is silently accepted. -/
theorem dimension_mismatch_cex :
    findNN_brute_force_checked (recursiveInit [[0, 0]] 0) [3, 4, 5] =
        .ok (some [0, 0]) ∧
      findNN_checked (recursiveInit [[0, 0]] 0) [3, 4, 5] = .ok [0, 0] := by
  constructor <;> rfl

/-- C7 (amended): constructing a tree from points of differing
dimensionalities fails the construction-time assertion; querying with a
point of dimensionality smaller than the tree's fails with the
out-of-range indexing error of `Point::operator[]` (not a dedicated
dimension-mismatch error); but querying with a point of larger
dimensionality is not rejected: both searches succeed and return the same
point as the unchecked search, computed over the tree's dimensionality. -/
theorem dimension_mismatch_amended {pts : List (List Int)} {dims : Nat} {t : Tree}
    (ref : List Int)
    (hdims : 0 < dims) (hall : ∀ x ∈ pts, x.length = dims) (hne : pts ≠ [])
    (ht : recursiveInit pts 0 = t) :
    (∀ (pts2 : List (List Int)) (x : List Int), x ∈ pts2 → ∀ y ∈ pts2,
        x.length ≠ y.length →
          recursiveInitChecked pts2 = .error "assertion: k == one_common_size") ∧
      (ref.length < dims →
        findNN_brute_force_checked t ref = .error "Point::operator[]" ∧
          findNN_checked t ref = .error "Point::operator[]") ∧
      (dims ≤ ref.length →
        findNN_brute_force_checked t ref = .ok (findNN_brute_force t ref) ∧
          findNN_checked t ref = .ok (findNN t ref)) := by
  subst ht
  obtain ⟨hwf, hord, hnlr, hleaf, hperm, htrav⟩ := built_tree_facts hdims hall hne
  have hptslen : ∀ p ∈ traversalPoints (recursiveInit pts 0), p.length = dims := by
    intro p hp
    rw [htrav] at hp
    exact hall p (hperm.mem_iff.mp hp)
  refine ⟨?_, ?_, ?_⟩
  · intro pts2 x hx y hy hxy
    exact recursiveInitChecked_error hx hy hxy
  · intro href
    constructor
    · rcases hT : traversalPoints (recursiveInit pts 0) with _ | ⟨p0, rest⟩
      · exfalso
        have htne : treePoints (recursiveInit pts 0) ≠ [] := by
          intro hc
          rw [hc] at hperm
          exact hne hperm.symm.eq_nil
        rw [htrav] at hT
        exact htne hT
      · have hp0 : p0.length = dims := hptslen p0 (by
          rw [hT]
          exact List.mem_cons_self _ _)
        have herr := @bfGoE_error ref dims p0 rest
          ((none : Option (List Int)), (none : Option Int)) hp0 href
        unfold findNN_brute_force_checked
        rw [hT, herr]
        rfl
    · rcases htt : recursiveInit pts 0 with _ | ⟨sp, ax, l, r⟩
      · rw [htt] at hleaf
        simp [Tree.isLeaf] at hleaf
      · have hsp : sp.length = dims := by
          rw [htt] at hwf
          exact (wellFormed_node_iff.mp hwf).1
        exact findNN_checked_error hsp href
  · intro hd
    constructor
    · have hok := @bfGoE_ok ref dims hd (traversalPoints (recursiveInit pts 0))
        ((none : Option (List Int)), (none : Option Int)) hptslen
      unfold findNN_brute_force_checked findNN_brute_force
      rw [hok]
      rfl
    · have hok := findNN_E_ok hd (recursiveInit pts 0) hwf
        (findNN_init (recursiveInit pts 0))
      unfold findNN_checked findNN
      rw [hok]
      rfl

theorem dimension_mismatch_amended_witness :
    (0 < 2 ∧ (∀ x ∈ ([[0, 0], [1, 1]] : List (List Int)), x.length = 2) ∧
        ([[0, 0], [1, 1]] : List (List Int)) ≠ []) ∧
      ((∀ (pts2 : List (List Int)) (x : List Int), x ∈ pts2 → ∀ y ∈ pts2,
          x.length ≠ y.length →
            recursiveInitChecked pts2 = .error "assertion: k == one_common_size") ∧
        (([9] : List Int).length < 2 →
          findNN_brute_force_checked (recursiveInit [[0, 0], [1, 1]] 0) [9] =
              .error "Point::operator[]" ∧
            findNN_checked (recursiveInit [[0, 0], [1, 1]] 0) [9] =
              .error "Point::operator[]") ∧
        (2 ≤ ([9] : List Int).length →
          findNN_brute_force_checked (recursiveInit [[0, 0], [1, 1]] 0) [9] =
              .ok (findNN_brute_force (recursiveInit [[0, 0], [1, 1]] 0) [9]) ∧
            findNN_checked (recursiveInit [[0, 0], [1, 1]] 0) [9] =
              .ok (findNN (recursiveInit [[0, 0], [1, 1]] 0) [9]))) :=
  ⟨⟨by decide, by decide, by decide⟩,
    @dimension_mismatch_amended [[0, 0], [1, 1]] 2 _ [9] (by decide) (by decide) (by decide)
      rfl⟩

/-- C8 (counterexample): the claim says `findNN` initializes the running
best squared distance to the squared distance from the root's point to the
query; in fact it initializes it to `numeric_limits<T>::max()` (the `none`
sentinel), which differs from the root's distance at this concrete tree
and query. -/
theorem findNN_init_cex :
    findNN_init (recursiveInit [[0, 0]] 0) ≠
      ((recursiveInit [[0, 0]] 0).split_point,
        some (distance_to (recursiveInit [[0, 0]] 0).split_point [3, 4])) := by
  decide

/-- C8 (amended): `findNN` initializes the running best point to the root's
own point and the running best squared distance to
`numeric_limits<T>::max()` (the `none` sentinel); initializing the distance
instead to the root's squared distance to the query, as the spec describes,
would not change the result, because the recursion's first visit to the
root installs exactly that distance. -/
theorem findNN_init_amended (t : Tree) (ref : List Int) (h : t.isLeaf = false) :
    findNN_init t = (t.split_point, none) ∧
      findNN t ref =
        (findNN_ t ref (t.split_point, some (distance_to t.split_point ref))).1 := by
  refine ⟨rfl, ?_⟩
  rcases t with _ | ⟨sp, ax, l, r⟩
  · simp [Tree.isLeaf] at h
  · show (findNN_ (Tree.node sp ax l r) ref (sp, none)).1 = _
    congr 1
    apply findNN_update_eq
    simp [ltBest, Tree.split_point]

theorem findNN_init_amended_witness :
    (recursiveInit [[0, 0]] 0).isLeaf = false ∧
      (findNN_init (recursiveInit [[0, 0]] 0) =
          ((recursiveInit [[0, 0]] 0).split_point, none) ∧
        findNN (recursiveInit [[0, 0]] 0) [3, 4] =
          (findNN_ (recursiveInit [[0, 0]] 0) [3, 4]
            ((recursiveInit [[0, 0]] 0).split_point,
              some (distance_to (recursiveInit [[0, 0]] 0).split_point [3, 4]))).1) :=
  ⟨by decide, findNN_init_amended (recursiveInit [[0, 0]] 0) [3, 4] (by decide)⟩

/-- C9: in every constructed tree, a node with a right child also has a
left child; consequently the iterator's initial descent never needs its
right-child fallback (it equals the pure left-spine descent), and the
iteration from `begin()` enumerates exactly the in-order paths. -/
theorem no_lone_right_invariant {pts : List (List Int)} {dims : Nat} {t : Tree}
    (hdims : 0 < dims) (hall : ∀ p ∈ pts, p.length = dims) (hne : pts ≠ [])
    (ht : recursiveInit pts 0 = t) :
    noLoneRight t = true ∧ beginPath t = leftSpine t ∧
      traversalPaths t = inorderPaths t := by
  subst ht
  obtain ⟨hwf, hord, hnlr, hleaf, hperm, htrav⟩ := built_tree_facts hdims hall hne
  exact ⟨hnlr, beginPath_eq_leftSpine _ hnlr, traversalPaths_eq_inorder hnlr hleaf⟩

theorem no_lone_right_invariant_witness :
    (0 < 2 ∧ (∀ p ∈ examplePoints, p.length = 2) ∧ examplePoints ≠ []) ∧
      noLoneRight (recursiveInit examplePoints 0) = true ∧
      beginPath (recursiveInit examplePoints 0) =
        leftSpine (recursiveInit examplePoints 0) ∧
      traversalPaths (recursiveInit examplePoints 0) =
        inorderPaths (recursiveInit examplePoints 0) :=
  ⟨⟨by decide, by decide, by decide⟩,
    @no_lone_right_invariant examplePoints 2 _ (by decide) (by decide) (by decide) rfl⟩

/-- C10: for the tree built from the single point (0,0) and every
two-dimensional query, both searches return (0,0). -/
theorem single_point_tree_search {t : Tree} {q : List Int}
    (ht : recursiveInit [[0, 0]] 0 = t) (hq : q.length = 2) :
    findNN t q = [0, 0] ∧ findNN_brute_force t q = some [0, 0] := by
  have ht0 : t = Tree.node [0, 0] 0 .leaf .leaf := by
    rw [← ht]
    rfl
  subst ht0
  constructor
  · show (findNN_ (Tree.node [0, 0] 0 .leaf .leaf) q ([0, 0], none)).1 = [0, 0]
    rw [findNN_node_eq]
    by_cases hs : 0 < q.getD 0 0 - ([0, 0] : List Int).getD 0 0
    · rw [if_pos hs]
      unfold prStep
      split_ifs <;> rfl
    · rw [if_neg hs]
      unfold prStep
      split_ifs <;> rfl
  · rfl

theorem single_point_tree_search_witness :
    ((5 : Int) = 5 ∧ ([5, 7] : List Int).length = 2) ∧
      findNN (recursiveInit [[0, 0]] 0) [5, 7] = [0, 0] ∧
        findNN_brute_force (recursiveInit [[0, 0]] 0) [5, 7] = some [0, 0] :=
  ⟨⟨rfl, by decide⟩, single_point_tree_search rfl (by decide)⟩

end KD
